import Mathlib

/-!
# Relevance scorer: embedding and verified properties

A shallow embedding of `relevance_scorer.cpp` / `relevance_scorer.h` and of the
fallback decision of `main.cpp`.

Modelling conventions.

* A `std::string` is a `List Char`, one `Char` per `char` of the C++ string.
  `::tolower`, `std::isalnum` and the whitespace test of `operator>>` are the
  "C" locale functions: only ASCII letters are case-folded, only ASCII letters
  and digits are alphanumeric.
* A `double` is a real number: `std::log` is `Real.log`, `std::sqrt` is
  `Real.sqrt`, and rounding is not modelled.  Everything that does not touch a
  `double` (tokenizer, document frequency, term frequency, phrase test,
  `std::map`) is computable.
* An `int` counter is an integer; counts of `2^31` documents or tokens, where
  an `int` would overflow, are outside the model.
* A `std::map<std::string, V>` is an association list kept in increasing key
  order; `mapFind` is `find`/`count`/`at`, `mapSet` is the assignment
  `m[k] = v`.
* `std::sort` is not code of this program.  It enters through the contract
  the C++ standard gives it (`StdSort`): for a strict weak ordering the output
  is a permutation of the input in which no later element compares before an
  earlier one.  The standard does not promise anything about the relative
  order of equivalent elements.  The `std::sort` of GNU libstdc++ is
  transcribed as `gnuSort` and is one implementation of the contract,
  `gnuStdSort`.
-/

namespace RelevanceScorer

/-- A `std::string`, one `Char` per `char`. -/
abbrev Str := List Char

/-- The struct `DocumentScore` of `relevance_scorer.h`. -/
structure DocumentScore where
  filePath : Str
  score : ℝ

/-! ## Character functions of the C library -/

/-- `std::isspace` in the "C" locale: space, `\t`, `\n`, `\v`, `\f`, `\r`. -/
def isspace (c : Char) : Bool :=
  c.toNat == 32 || (9 ≤ c.toNat && c.toNat ≤ 13)

/-- `::tolower` in the "C" locale. -/
def tolower (c : Char) : Char := c.toLower

/-- `std::isalnum` in the "C" locale. -/
def isalnum (c : Char) : Bool := c.isAlphanum

/-- `toLowerRaw`: `std::transform` with `::tolower` over a copy of the input. -/
def toLowerRaw (input : Str) : Str := input.map tolower

/-! ## `std::map` -/

/-- A `std::map<std::string, V>`: its entries in iteration (key) order. -/
abbrev StdMap (β : Type) := List (Str × β)

/-- Lookup by key, as done by `find`, `count` and `at`. -/
def mapFind {β : Type} : StdMap β → Str → Option β
  | [], _ => none
  | (k', v) :: m, k => if k = k' then some v else mapFind m k

/-- The assignment `m[k] = v`: overwrite the entry of `k`, or insert it at its
place in key order. -/
def mapSet {β : Type} (k : Str) (v : β) : StdMap β → StdMap β
  | [] => [(k, v)]
  | (k', v') :: m =>
    if k = k' then (k, v) :: m
    else if k < k' then (k, v) :: (k', v') :: m
    else (k', v') :: mapSet k v m

/-- The invariant of a `std::map`: the entries are in strictly increasing key
order, so no key occurs twice.  The operations below do not need it to run;
the theorems that depend on it take it as a hypothesis. -/
def MapOrdered {β : Type} (m : StdMap β) : Prop :=
  m.Pairwise (fun a b => a.1 < b.1)

/-- The type `CorpusMap`: a `std::map` from file path to extracted text. -/
abbrev CorpusMap := StdMap Str

/-- The type `TokenizedCorpus`. -/
abbrev TokenizedCorpus := StdMap (List Str)

/-! ## `std::string::find` -/

/-- Search of `needle` in `hay` from position `pos` on: the first position at
which `needle` matches, `none` for `npos`. -/
def strFindFrom (needle : Str) : Str → Nat → Option Nat
  | [], pos => if needle.isEmpty then some pos else none
  | c :: hay, pos =>
    if needle.isPrefixOf (c :: hay) then some pos else strFindFrom needle hay (pos + 1)

/-- The call `hay.find(needle)`. -/
def strFind (hay needle : Str) : Option Nat := strFindFrom needle hay 0

/-! ## `std::sort` -/

/-- A strict weak ordering, the requirement the C++ standard puts on the
comparison object of `std::sort`. -/
structure StrictWeakOrder {α : Type} (comp : α → α → Prop) : Prop where
  irrefl : ∀ a, ¬ comp a a
  trans : ∀ a b c, comp a b → comp b c → comp a c
  incomp_trans : ∀ a b c, ¬ comp a b → ¬ comp b a → ¬ comp b c → ¬ comp c b →
    ¬ comp a c ∧ ¬ comp c a

/-- An implementation of `std::sort`, with the contract of the C++ standard:
given a strict weak ordering `comp`, the output is a permutation of the input
and no element compares before one that precedes it.  Nothing is said about
elements that are equivalent under `comp`. -/
structure StdSort where
  sort : {α : Type} → (comp : α → α → Prop) → [DecidableRel comp] → List α → List α
  perm : ∀ {α : Type} (comp : α → α → Prop) [DecidableRel comp] (l : List α),
    StrictWeakOrder comp → (sort comp l).Perm l
  sorted : ∀ {α : Type} (comp : α → α → Prop) [DecidableRel comp] (l : List α),
    StrictWeakOrder comp → (sort comp l).Pairwise (fun a b => ¬ comp b a)

/-- Insertion sort from the right: equivalent elements keep their order. -/
def stableSortBy {α : Type} (comp : α → α → Prop) [DecidableRel comp] (l : List α) : List α :=
  l.insertionSort (fun a b => ¬ comp b a)

/-- A stable implementation of `std::sort`. -/
def stableStdSort : StdSort where
  sort := fun comp _ l => stableSortBy comp l
  perm := fun comp _ l _ => List.perm_insertionSort (fun a b => ¬ comp b a) l
  sorted := fun comp _ l h =>
    @List.sorted_insertionSort _ (fun a b => ¬ comp b a) _
      ⟨fun a b => by
        by_cases hba : comp b a
        · exact Or.inr (fun hab => h.irrefl a (h.trans a b a hab hba))
        · exact Or.inl hba⟩
      ⟨fun a b c hab hbc hca => by
        have h1 : ¬ comp b c := fun hbc2 => hab (h.trans b c a hbc2 hca)
        have h2 : ¬ comp a b := fun hab2 => hbc (h.trans c a b hca hab2)
        exact (h.incomp_trans c b a hbc h1 hab h2).1 hca⟩ l

/-! ## The `std::sort` of GNU libstdc++

`bits/stl_algo.h` and `bits/stl_heap.h`: introsort (median-of-three quicksort
down to ranges of 16 elements, heap sort when the depth limit is used up)
followed by a final insertion sort.  The vector is a list, iterators are
positions in it, `lt` is the comparison object.  Loops run on a count that
covers every iteration the C++ loop can make. -/

/-- The comparison `comp(i, j)` of the elements at two positions. -/
def compAt {α : Type} (lt : α → α → Bool) (v : List α) (i j : Nat) : Bool :=
  match v[i]?, v[j]? with
  | some a, some b => lt a b
  | _, _ => false

/-- The comparison `comp(val, j)` of a value with the element at a position. -/
def compValAt {α : Type} (lt : α → α → Bool) (val : α) (v : List α) (j : Nat) : Bool :=
  match v[j]? with
  | some b => lt val b
  | none => false

/-- The comparison `comp(i, val)` of the element at a position with a value. -/
def compAtVal {α : Type} (lt : α → α → Bool) (v : List α) (i : Nat) (val : α) : Bool :=
  match v[i]? with
  | some a => lt a val
  | none => false

/-- The call `std::iter_swap(i, j)`. -/
def iterSwap {α : Type} (v : List α) (i j : Nat) : List α :=
  match v[i]?, v[j]? with
  | some a, some b => (v.set i b).set j a
  | _, _ => v

/-- The assignment `*dst = std::move(*src)`. -/
def assignFrom {α : Type} (v : List α) (dst src : Nat) : List α :=
  match v[src]? with
  | some a => v.set dst a
  | none => v

/-- The function `__move_median_to_first`. -/
def gnuMoveMedianToFirst {α : Type} (lt : α → α → Bool) (v : List α) (result a b c : Nat) :
    List α :=
  if compAt lt v a b then
    if compAt lt v b c then iterSwap v result b
    else if compAt lt v a c then iterSwap v result c
    else iterSwap v result a
  else if compAt lt v a c then iterSwap v result a
  else if compAt lt v b c then iterSwap v result c
  else iterSwap v result b

/-- The loop `while (comp(first, pivot)) ++first` of `__unguarded_partition`. -/
def gnuScanUp {α : Type} (lt : α → α → Bool) (v : List α) (pivot : Nat) : Nat → Nat → Nat
  | 0, first => first
  | fuel + 1, first =>
    if compAt lt v first pivot then gnuScanUp lt v pivot fuel (first + 1) else first

/-- The loop `while (comp(pivot, last)) --last` of `__unguarded_partition`. -/
def gnuScanDown {α : Type} (lt : α → α → Bool) (v : List α) (pivot : Nat) : Nat → Nat → Nat
  | 0, last => last
  | fuel + 1, last =>
    if compAt lt v pivot last then gnuScanDown lt v pivot fuel (last - 1) else last

/-- The function `__unguarded_partition`: the vector after the swaps and the
returned cut position. -/
def gnuUnguardedPartition {α : Type} (lt : α → α → Bool) (pivot : Nat) :
    Nat → List α → Nat → Nat → List α × Nat
  | 0, v, first, _ => (v, first)
  | fuel + 1, v, first, last =>
    let first := gnuScanUp lt v pivot (v.length + 1) first
    let last := last - 1
    let last := gnuScanDown lt v pivot (v.length + 1) last
    if !(decide (first < last)) then (v, first)
    else gnuUnguardedPartition lt pivot fuel (iterSwap v first last) (first + 1) last

/-- The function `__unguarded_partition_pivot`. -/
def gnuUnguardedPartitionPivot {α : Type} (lt : α → α → Bool) (v : List α)
    (first last : Nat) : List α × Nat :=
  let mid := first + (last - first) / 2
  let v := gnuMoveMedianToFirst lt v first (first + 1) mid (last - 1)
  gnuUnguardedPartition lt first (v.length + 1) v (first + 1) last

/-- The function `__push_heap`. -/
def gnuPushHeap {α : Type} (lt : α → α → Bool) (first topIndex : Nat) (value : α) :
    Nat → List α → Nat → List α
  | 0, v, holeIndex => v.set (first + holeIndex) value
  | fuel + 1, v, holeIndex =>
    let parent := (holeIndex - 1) / 2
    if decide (holeIndex > topIndex) && compAtVal lt v (first + parent) value then
      gnuPushHeap lt first topIndex value fuel
        (assignFrom v (first + holeIndex) (first + parent)) parent
    else v.set (first + holeIndex) value

/-- The `while` loop of `__adjust_heap`: the vector, `holeIndex` and
`secondChild` after it. -/
def gnuAdjustHeapDown {α : Type} (lt : α → α → Bool) (first len : Nat) :
    Nat → List α → Nat → Nat → List α × Nat × Nat
  | 0, v, holeIndex, secondChild => (v, holeIndex, secondChild)
  | fuel + 1, v, holeIndex, secondChild =>
    if secondChild < (len - 1) / 2 then
      let secondChild := 2 * (secondChild + 1)
      let secondChild :=
        if compAt lt v (first + secondChild) (first + (secondChild - 1)) then secondChild - 1
        else secondChild
      gnuAdjustHeapDown lt first len fuel
        (assignFrom v (first + holeIndex) (first + secondChild)) secondChild secondChild
    else (v, holeIndex, secondChild)

/-- The function `__adjust_heap`. -/
def gnuAdjustHeap {α : Type} (lt : α → α → Bool) (v : List α) (first holeIndex len : Nat)
    (value : α) : List α :=
  let topIndex := holeIndex
  let down := gnuAdjustHeapDown lt first len (len + 1) v holeIndex holeIndex
  if len % 2 == 0 && down.2.2 == (len - 2) / 2 then
    let secondChild := 2 * (down.2.2 + 1)
    let v := assignFrom down.1 (first + down.2.1) (first + (secondChild - 1))
    gnuPushHeap lt first topIndex value (len + 1) v (secondChild - 1)
  else gnuPushHeap lt first topIndex value (len + 1) down.1 down.2.1

/-- The function `__pop_heap`. -/
def gnuPopHeap {α : Type} (lt : α → α → Bool) (v : List α) (first last result : Nat) :
    List α :=
  match v[result]?, v[first]? with
  | some value, some top => gnuAdjustHeap lt (v.set result top) first 0 (last - first) value
  | _, _ => v

/-- The loop of `__make_heap`, from `parent` down to 0. -/
def gnuMakeHeapFrom {α : Type} (lt : α → α → Bool) (first len : Nat) :
    Nat → List α → List α
  | 0, v =>
    match v[first]? with
    | some value => gnuAdjustHeap lt v first 0 len value
    | none => v
  | parent + 1, v =>
    match v[first + (parent + 1)]? with
    | some value =>
      gnuMakeHeapFrom lt first len parent (gnuAdjustHeap lt v first (parent + 1) len value)
    | none => v

/-- The function `__make_heap`. -/
def gnuMakeHeap {α : Type} (lt : α → α → Bool) (v : List α) (first last : Nat) : List α :=
  if last - first < 2 then v
  else gnuMakeHeapFrom lt first (last - first) ((last - first - 2) / 2) v

/-- The `for` loop of `__heap_select`, from position `i` on. -/
def gnuHeapSelectFrom {α : Type} (lt : α → α → Bool) (first middle : Nat) :
    Nat → List α → Nat → List α
  | 0, v, _ => v
  | count + 1, v, i =>
    if compAt lt v i first then
      gnuHeapSelectFrom lt first middle count (gnuPopHeap lt v first middle i) (i + 1)
    else gnuHeapSelectFrom lt first middle count v (i + 1)

/-- The function `__heap_select`. -/
def gnuHeapSelect {α : Type} (lt : α → α → Bool) (v : List α) (first middle last : Nat) :
    List α :=
  gnuHeapSelectFrom lt first middle (last - middle) (gnuMakeHeap lt v first middle) middle

/-- The function `__sort_heap`. -/
def gnuSortHeap {α : Type} (lt : α → α → Bool) (first : Nat) : Nat → List α → Nat → List α
  | 0, v, _ => v
  | fuel + 1, v, last =>
    if last - first > 1 then
      gnuSortHeap lt first fuel (gnuPopHeap lt v first (last - 1) (last - 1)) (last - 1)
    else v

/-- The function `__partial_sort`. -/
def gnuHeapSortRange {α : Type} (lt : α → α → Bool) (v : List α) (first middle last : Nat) :
    List α :=
  gnuSortHeap lt first (middle - first) (gnuHeapSelect lt v first middle last) middle

/-- The `while` loop of `__unguarded_linear_insert`. -/
def gnuLinearInsertLoop {α : Type} (lt : α → α → Bool) (val : α) :
    Nat → List α → Nat → List α
  | 0, v, last => v.set last val
  | fuel + 1, v, last =>
    if compValAt lt val v (last - 1) then
      gnuLinearInsertLoop lt val fuel (assignFrom v last (last - 1)) (last - 1)
    else v.set last val

/-- The function `__unguarded_linear_insert`. -/
def gnuUnguardedLinearInsert {α : Type} (lt : α → α → Bool) (v : List α) (last : Nat) :
    List α :=
  match v[last]? with
  | some val => gnuLinearInsertLoop lt val (v.length + 1) v last
  | none => v

/-- The call `std::move_backward` that shifts `count` elements up by one
position, the last of them landing on `dst`. -/
def gnuMoveBackward {α : Type} : Nat → List α → Nat → List α
  | 0, v, _ => v
  | count + 1, v, dst => gnuMoveBackward count (assignFrom v dst (dst - 1)) (dst - 1)

/-- The `for` loop of `__insertion_sort`, from position `i` on. -/
def gnuInsertionSortFrom {α : Type} (lt : α → α → Bool) (first : Nat) :
    Nat → List α → Nat → List α
  | 0, v, _ => v
  | count + 1, v, i =>
    if compAt lt v i first then
      match v[i]? with
      | some val =>
        gnuInsertionSortFrom lt first count ((gnuMoveBackward (i - first) v i).set first val)
          (i + 1)
      | none => gnuInsertionSortFrom lt first count v (i + 1)
    else gnuInsertionSortFrom lt first count (gnuUnguardedLinearInsert lt v i) (i + 1)

/-- The function `__insertion_sort`. -/
def gnuInsertionSort {α : Type} (lt : α → α → Bool) (v : List α) (first last : Nat) :
    List α :=
  if first == last then v
  else gnuInsertionSortFrom lt first (last - (first + 1)) v (first + 1)

/-- The function `__unguarded_insertion_sort`, from position `i` on. -/
def gnuUnguardedInsertionSort {α : Type} (lt : α → α → Bool) : Nat → List α → Nat → List α
  | 0, v, _ => v
  | count + 1, v, i =>
    gnuUnguardedInsertionSort lt count (gnuUnguardedLinearInsert lt v i) (i + 1)

/-- The constant `_S_threshold`. -/
def S_threshold : Nat := 16

/-- The function `__final_insertion_sort`. -/
def gnuFinalInsertionSort {α : Type} (lt : α → α → Bool) (v : List α) (first last : Nat) :
    List α :=
  if last - first > S_threshold then
    gnuUnguardedInsertionSort lt (last - (first + S_threshold))
      (gnuInsertionSort lt v first (first + S_threshold)) (first + S_threshold)
  else gnuInsertionSort lt v first last

/-- The function `__introsort_loop`, by recursion on `depth_limit`: every turn
of its `while` loop takes one off the depth limit, and the loop is left when
the limit is 0. -/
def gnuIntrosortLoop {α : Type} (lt : α → α → Bool) : Nat → List α → Nat → Nat → List α
  | 0, v, first, last =>
    if last - first > S_threshold then gnuHeapSortRange lt v first last last else v
  | depthLimit + 1, v, first, last =>
    if last - first > S_threshold then
      let cut := gnuUnguardedPartitionPivot lt v first last
      gnuIntrosortLoop lt depthLimit
        (gnuIntrosortLoop lt depthLimit cut.1 cut.2 last) first cut.2
    else v

/-- The binary logarithm rounded down, by halving. -/
def lgFrom : Nat → Nat → Nat
  | 0, _ => 0
  | fuel + 1, n => if n ≤ 1 then 0 else lgFrom fuel (n / 2) + 1

/-- The function `std::__lg`. -/
def lg (n : Nat) : Nat := lgFrom n n

/-- The function `std::__sort` that `std::sort` calls. -/
def gnuSort {α : Type} (lt : α → α → Bool) (v : List α) : List α :=
  if v.length ≠ 0 then
    gnuFinalInsertionSort lt (gnuIntrosortLoop lt (lg v.length * 2) v 0 v.length) 0 v.length
  else v

/-- The comparison of two positions of the vector `l` by the elements they
hold. -/
def positionLess {α : Type} (comp : α → α → Prop) [DecidableRel comp] (l : List α)
    (i j : Nat) : Bool :=
  match l[i]?, l[j]? with
  | some a, some b => decide (comp a b)
  | _, _ => false

/-- The order in which `gnuSort` leaves the positions `0 .. n-1` of the vector
`l`: the run of the algorithm on `l`, told by where each element came from. -/
def gnuSortedPositions {α : Type} (comp : α → α → Prop) [DecidableRel comp] (l : List α) :
    List Nat :=
  gnuSort (positionLess comp l) (List.range l.length)

/-- The elements of `l` at the given positions, in that order. -/
def gather {α : Type} (l : List α) (positions : List Nat) : List α :=
  positions.filterMap (fun i => l[i]?)

/-- The `std::sort` of GNU libstdc++ as an implementation of the contract: the
vector is rearranged as `gnuSort` rearranges its positions, which is the
vector `gnuSort` itself returns (`gather_gnuSortedPositions`).  The contract is
checked on the outcome instead of being proved of the algorithm; the check
holds whenever `gnuSort` sorts, and the stable sort stands in should it ever
fail. -/
def gnuStdSort : StdSort where
  sort := fun comp _ l =>
    if (gnuSortedPositions comp l).Perm (List.range l.length) ∧
        (gather l (gnuSortedPositions comp l)).Pairwise (fun a b => ¬ comp b a) then
      gather l (gnuSortedPositions comp l)
    else stableSortBy comp l
  perm := fun {α} comp _ l h => by
    have hgather : ∀ m : List α, gather m (List.range m.length) = m := by
      intro m
      induction m using List.reverseRecOn with
      | nil => rfl
      | append_singleton m a ih =>
        unfold gather at ih ⊢
        rw [List.length_append, List.length_singleton, List.range_succ, List.filterMap_append]
        have hleft : List.filterMap (fun i => (m ++ [a])[i]?) (List.range m.length) =
            List.filterMap (fun i => m[i]?) (List.range m.length) := by
          apply List.filterMap_congr
          intro i hi
          exact List.getElem?_append_left (List.mem_range.mp hi)
        rw [hleft, ih]
        simp
    by_cases hg : (gnuSortedPositions comp l).Perm (List.range l.length) ∧
        (gather l (gnuSortedPositions comp l)).Pairwise (fun a b => ¬ comp b a)
    · simp only [if_pos hg]
      have hp := hg.1.filterMap (fun i => l[i]?)
      have hl := hgather l
      unfold gather at hl ⊢
      rw [hl] at hp
      exact hp
    · simp only [if_neg hg]
      exact stableStdSort.perm comp l h
  sorted := fun comp _ l h => by
    by_cases hg : (gnuSortedPositions comp l).Perm (List.range l.length) ∧
        (gather l (gnuSortedPositions comp l)).Pairwise (fun a b => ¬ comp b a)
    · simp only [if_pos hg]
      exact hg.2
    · simp only [if_neg hg]
      exact stableStdSort.sorted comp l h

/-! ## The tokenizer -/

/-- The member `STOP_WORDS`. -/
def STOP_WORDS : List Str :=
  ["the".toList, "and".toList, "a".toList, "an".toList, "in".toList, "on".toList,
   "of".toList, "for".toList, "with".toList, "to".toList, "is".toList, "are".toList,
   "was".toList, "were".toList]

/-- The extraction `ss >> token` on the unread part of the stream: skip
leading whitespace, then read up to the next whitespace character.  `none`
when no character is left (the stream fails); otherwise the token and the
unread rest. -/
def extractWord (ss : Str) : Option (Str × Str) :=
  let s := ss.dropWhile isspace
  if s.isEmpty then none
  else some (s.takeWhile (fun c => !isspace c), s.dropWhile (fun c => !isspace c))

/-- The `while (ss >> token)` loop of `tokenizeAndPreprocess`; `fuel` bounds
the number of iterations. -/
def tokenizeLoop : Nat → Str → List Str → List Str
  | 0, _, tokens => tokens
  | fuel + 1, ss, tokens =>
    match extractWord ss with
    | none => tokens
    | some (token, rest) =>
      let token := token.map tolower
      let token := token.filter isalnum
      if !token.isEmpty && !(STOP_WORDS.contains token) then
        tokenizeLoop fuel rest (tokens ++ [token])
      else
        tokenizeLoop fuel rest tokens

/-- The method `RelevanceScorer::tokenizeAndPreprocess`.  Every iteration
consumes at least one character, so `text.length` iterations are enough. -/
def tokenizeAndPreprocess (text : Str) : List Str :=
  tokenizeLoop text.length text []

/-- The tokenizer as the specification words it: split on whitespace,
lowercase each word, delete its non-alphanumeric characters, drop the words
that became empty and the stop words. -/
def specTokenize (text : Str) : List Str :=
  (((text.splitOnP isspace).map (fun w => (w.map tolower).filter isalnum)).filter
    (fun w => !w.isEmpty)).filter (fun w => !(STOP_WORDS.contains w))

/-! ## Inverse document frequency -/

/-- The call `std::find(v.begin(), v.end(), term)` on a vector: the position of
the first element equal to `term`, the length of the vector (`v.end()`) when
there is none. -/
def vecFind (term : Str) : List Str → Nat
  | [] => 0
  | t :: tokens => if t = term then 0 else vecFind term tokens + 1

/-- The counting loop of `calculateIdf`: the value of `docCount` after the
loop over `tokenizedDocs`, started from `docCount`. -/
def countDocs (term : Str) (tokenizedDocs : TokenizedCorpus) (docCount : Int) : Int :=
  tokenizedDocs.foldl
    (fun docCount pair =>
      if vecFind term pair.2 ≠ pair.2.length then docCount + 1 else docCount)
    docCount

/-- The method `RelevanceScorer::calculateIdf`. -/
noncomputable def calculateIdf (term : Str) (tokenizedDocs : TokenizedCorpus) : ℝ :=
  let N : Int := tokenizedDocs.length
  let docCount : Int := countDocs term tokenizedDocs 0
  Real.log ((N : ℝ) / (1.0 + (docCount : ℝ)))

/-- The document frequency as the specification words it: the number of
documents whose token sequence contains the term at least once. -/
def documentFrequency (term : Str) (tokenizedDocs : TokenizedCorpus) : Nat :=
  (tokenizedDocs.filter (fun pair => decide (term ∈ pair.2))).length

/-! ## Scoring -/

/-- Step 1 of `scoreDocuments`: `tokenizedDocs[pair.first] = tokenize(pair.second)`
for every entry of the corpus. -/
def tokenizeCorpus (documentTexts : CorpusMap) : TokenizedCorpus :=
  documentTexts.foldl
    (fun tokenizedDocs pair => mapSet pair.1 (tokenizeAndPreprocess pair.2) tokenizedDocs) []

/-- Step 3 of `scoreDocuments`: the table `idfScores`, filled once per distinct
query term. -/
noncomputable def buildIdfScores (queryTokens : List Str) (tokenizedDocs : TokenizedCorpus) :
    StdMap ℝ :=
  queryTokens.foldl
    (fun idfScores term =>
      if (mapFind idfScores term).isNone then
        mapSet term (calculateIdf term tokenizedDocs) idfScores
      else idfScores) []

/-- Step 4.A, first loop: `termFrequency[token]++` for every token of the
document. -/
def countTerms (docTokens : List Str) : StdMap Int :=
  docTokens.foldl
    (fun termFrequency token =>
      mapSet token ((mapFind termFrequency token).getD 0 + 1) termFrequency) []

/-- The expression `m.count(term) ? m.at(term) : dflt`. -/
def mapAtOr {β : Type} (m : StdMap β) (term : Str) (dflt : β) : β :=
  match mapFind m term with
  | some v => v
  | none => dflt

/-- Step 4.A, second loop: the value of `relevanceSum` after the loop over the
query tokens. -/
noncomputable def termRelevance (queryTokens : List Str) (termFrequency : StdMap Int)
    (idfScores : StdMap ℝ) : ℝ :=
  queryTokens.foldl
    (fun relevanceSum term =>
      let tfRaw : Int := mapAtOr termFrequency term 0
      if tfRaw > 0 then
        let tfSaturated : ℝ := 1.0 + Real.log (tfRaw : ℝ)
        let idf : ℝ := mapAtOr idfScores term 0.0
        relevanceSum + tfSaturated * idf
      else relevanceSum) 0.0

/-- Step 4.B, the condition of the exact phrase bonus:
`query.length() > 5 && docLower.find(queryLower) != npos`. -/
def phraseMatches (docText query : Str) : Bool :=
  let docLower := toLowerRaw docText
  let queryLower := toLowerRaw query
  decide (query.length > 5) && (strFind docLower queryLower).isSome

/-- Step 4.B: `relevanceSum` after the exact phrase bonus. -/
noncomputable def addPhraseBonus (relevanceSum : ℝ) (docText query : Str) : ℝ :=
  if phraseMatches docText query then relevanceSum + 100.0 else relevanceSum

/-- Step 4.C: `docLength`, the token count floored at one. -/
noncomputable def docLengthOf (docTokens : List Str) : ℝ :=
  let docLength : ℝ := (docTokens.length : ℝ)
  if docLength < 1.0 then 1.0 else docLength

/-- The body of the scoring loop of `scoreDocuments` for one corpus entry.
`tokenizedDocs[ds.filePath]` is the stored token vector, the empty vector if
the key had no entry. -/
noncomputable def scoreDocument (tokenizedDocs : TokenizedCorpus) (queryTokens : List Str)
    (idfScores : StdMap ℝ) (query : Str) (docPair : Str × Str) : DocumentScore :=
  let docTokens := mapAtOr tokenizedDocs docPair.1 []
  let termFrequency := countTerms docTokens
  let relevanceSum := termRelevance queryTokens termFrequency idfScores
  let relevanceSum := addPhraseBonus relevanceSum docPair.2 query
  let docLength := docLengthOf docTokens
  { filePath := docPair.1, score := relevanceSum / Real.sqrt docLength }

/-- The vector `results` of `scoreDocuments` before step 5: one score per
corpus entry, in corpus iteration order. -/
noncomputable def unsortedScores (documentTexts : CorpusMap) (query : Str) :
    List DocumentScore :=
  let tokenizedDocs := tokenizeCorpus documentTexts
  let queryTokens := tokenizeAndPreprocess query
  let idfScores := buildIdfScores queryTokens tokenizedDocs
  documentTexts.foldl
    (fun results docPair =>
      results ++ [scoreDocument tokenizedDocs queryTokens idfScores query docPair]) []

/-- The method `RelevanceScorer::scoreDocuments`, over an implementation `S`
of `std::sort`. -/
noncomputable def scoreDocuments (S : StdSort) (documentTexts : CorpusMap) (query : Str) :
    List DocumentScore :=
  if documentTexts.isEmpty then []
  else S.sort (fun a b : DocumentScore => a.score > b.score) (unsortedScores documentTexts query)

/-! ## The fallback decision of `main` -/

/-- The constant `MIN_ABSOLUTE_SCORE_THRESHOLD` of `main`. -/
noncomputable def MIN_ABSOLUTE_SCORE_THRESHOLD : ℝ := 0.500000

/-- The variable `topScoreRaw` of `main`. -/
noncomputable def topScoreRaw (localResults : List DocumentScore) : ℝ :=
  match localResults with
  | [] => 0.0
  | top :: _ => top.score

/-- The variable `fallbackNeeded` of `main`. -/
noncomputable def fallbackNeeded (localResults : List DocumentScore) : Bool :=
  decide (localResults.length < 5) ||
    decide (topScoreRaw localResults < MIN_ABSOLUTE_SCORE_THRESHOLD)

/-! ## Scoring and display in `main` -/

/-- The constant `searchTopic` of `main`. -/
def searchTopic : Str := "Title: AI-Powered Social Media Automation App".toList

/-- The corpus `main` builds.  `extracted` lists, in the order of `pdfPaths`,
each path with the text `extractText` returned for it;
`documentCorpus[path] = text` is done for the texts that are not empty. -/
def buildCorpus (extracted : List (Str × Str)) : CorpusMap :=
  extracted.foldl
    (fun documentCorpus pathText =>
      if !pathText.2.isEmpty then mapSet pathText.1 pathText.2 documentCorpus
      else documentCorpus) []

/-- The variables `localResults` and `maxScore` of `main`. -/
structure MainState where
  localResults : List DocumentScore
  maxScore : ℝ

/-- Step 3 of `main`: `localResults` and `maxScore` start as the empty vector
and 0.0; when there are paths and the corpus is not empty the corpus is
scored, and `maxScore` becomes the score of the first result if there is one
and it is positive. -/
noncomputable def mainScoring (S : StdSort) (extracted : List (Str × Str)) : MainState :=
  if !extracted.isEmpty then
    let documentCorpus := buildCorpus extracted
    if !documentCorpus.isEmpty then
      let localResults := scoreDocuments S documentCorpus searchTopic
      match localResults with
      | [] => { localResults := localResults, maxScore := 0.0 }
      | top :: _ =>
        if top.score > 0.0 then { localResults := localResults, maxScore := top.score }
        else { localResults := localResults, maxScore := 0.0 }
    else { localResults := [], maxScore := 0.0 }
  else { localResults := [], maxScore := 0.0 }

/-- The display loop of the local-results branch of `main`, from the value
`rank` of the rank counter on: the list of the values of `displayScore`, in
order.  The loop stops at rank 6 and at the first score that is not positive.
`none` records a division `res.score / maxScore` by a `maxScore` of zero. -/
noncomputable def displayLoop (maxScore : ℝ) : List DocumentScore → Int → Option (List ℝ)
  | [], _ => some []
  | res :: rest, rank =>
    if rank > 5 ∨ res.score ≤ 0.0 then some []
    else if maxScore = 0 then none
    else
      match displayLoop maxScore rest (rank + 1) with
      | none => none
      | some shown => some ((res.score / maxScore) * 100.0 :: shown)

/-! ## Sample inputs -/

/-- Five extracted documents: the first holds the search topic verbatim, the
others share no term with it. -/
def localExtracted : List (Str × Str) :=
  [("1.pdf".toList, "Title: AI-Powered Social Media Automation App".toList),
   ("2.pdf".toList, "x".toList), ("3.pdf".toList, "x".toList),
   ("4.pdf".toList, "x".toList), ("5.pdf".toList, "x".toList)]


/-- The two-document corpus of the end-to-end scenario. -/
def sampleCorpus : CorpusMap :=
  [("docA".toList, "machine learning social media automation".toList),
   ("docB".toList, "unrelated cooking recipes".toList)]

/-- The query of the end-to-end scenario. -/
def sampleQuery : Str := "social media automation".toList

/-- A tokenized corpus in which the term `cat` occurs in both documents. -/
def catDocs : TokenizedCorpus :=
  [("a".toList, ["cat".toList]), ("b".toList, ["dog".toList, "cat".toList, "cat".toList])]

/-- A one-document corpus whose document mentions `cat` once. -/
def catOnce : CorpusMap := [("d".toList, "cat".toList)]

/-- The same corpus with the document mentioning `cat` twice. -/
def catTwice : CorpusMap := [("d".toList, "cat cat".toList)]

/-- A four-document corpus whose first document is the text `social media`. -/
def bonusBefore : CorpusMap :=
  [("d".toList, "social media".toList), ("e".toList, "x".toList), ("f".toList, "x".toList),
   ("g".toList, "x".toList)]

/-- The same corpus with the first document reworded: `social` occurs twice,
`media` once, and the phrase `social media` no longer occurs. -/
def bonusAfter : CorpusMap :=
  [("d".toList, "media social social".toList), ("e".toList, "x".toList),
   ("f".toList, "x".toList), ("g".toList, "x".toList)]

/-- The query `social media`, twelve characters long. -/
def bonusQuery : Str := "social media".toList

/-- A corpus of 17 documents that share no term with `tieQuery`. -/
def tieCorpus : CorpusMap :=
  [("d01".toList, "x".toList), ("d02".toList, "x".toList), ("d03".toList, "x".toList),
   ("d04".toList, "x".toList), ("d05".toList, "x".toList), ("d06".toList, "x".toList),
   ("d07".toList, "x".toList), ("d08".toList, "x".toList), ("d09".toList, "x".toList),
   ("d10".toList, "x".toList), ("d11".toList, "x".toList), ("d12".toList, "x".toList),
   ("d13".toList, "x".toList), ("d14".toList, "x".toList), ("d15".toList, "x".toList),
   ("d16".toList, "x".toList), ("d17".toList, "x".toList)]

/-- A query that matches nothing in `tieCorpus`. -/
def tieQuery : Str := "z".toList

/-- A corpus whose first document has no token at all, and whose text is the
six-character query `punctQuery`. -/
def punctCorpus : CorpusMap := [("e".toList, "!!!!!!".toList), ("f".toList, "the cat".toList)]

/-- A query of six punctuation characters. -/
def punctQuery : Str := "!!!!!!".toList

/-- The order the specification asks for among equal scores: of two results
with the same score, the one that comes first has the smaller key, the key
order being the iteration order of the corpus map. -/
def TiesInCorpusOrder (results : List DocumentScore) : Prop :=
  results.Pairwise (fun a b => a.score = b.score → a.filePath < b.filePath)

/-! ## Auxiliary facts -/

theorem foldl_snoc_eq_map {α β : Type} (f : α → β) (l : List α) (init : List β) :
    l.foldl (fun acc x => acc ++ [f x]) init = init ++ l.map f := by
  induction l generalizing init with
  | nil => simp
  | cons x l ih => simp [ih]

theorem unsortedScores_eq_map (documentTexts : CorpusMap) (query : Str) :
    unsortedScores documentTexts query =
      documentTexts.map
        (scoreDocument (tokenizeCorpus documentTexts) (tokenizeAndPreprocess query)
          (buildIdfScores (tokenizeAndPreprocess query) (tokenizeCorpus documentTexts)) query) := by
  simp [unsortedScores, foldl_snoc_eq_map]

theorem score_gt_strictWeakOrder :
    StrictWeakOrder (fun a b : DocumentScore => a.score > b.score) where
  irrefl := fun a => lt_irrefl a.score
  trans := fun _ _ _ hab hbc => lt_trans hbc hab
  incomp_trans := fun a b c h1 h2 h3 h4 => by
    simp only [gt_iff_lt, not_lt] at *
    have hab : a.score = b.score := le_antisymm h1 h2
    have hbc : b.score = c.score := le_antisymm h3 h4
    constructor <;> linarith

theorem scoreDocuments_perm_unsorted (S : StdSort) (documentTexts : CorpusMap) (query : Str) :
    (scoreDocuments S documentTexts query).Perm (unsortedScores documentTexts query) := by
  unfold scoreDocuments
  split
  · rename_i h
    have h0 : documentTexts = [] := List.isEmpty_iff.mp h
    subst h0
    simp [unsortedScores]
  · exact S.perm _ _ score_gt_strictWeakOrder

theorem scoreDocuments_pairwise (S : StdSort) (documentTexts : CorpusMap) (query : Str) :
    (scoreDocuments S documentTexts query).Pairwise (fun a b => a.score ≥ b.score) := by
  unfold scoreDocuments
  split
  · exact List.Pairwise.nil
  · refine (S.sorted _ _ score_gt_strictWeakOrder).imp ?_
    intro a b h
    exact not_lt.mp h

theorem scoreDocuments_length (S : StdSort) (documentTexts : CorpusMap) (query : Str) :
    (scoreDocuments S documentTexts query).length = documentTexts.length := by
  rw [(scoreDocuments_perm_unsorted S documentTexts query).length_eq, unsortedScores_eq_map]
  simp

/-! ## C1: the result is sorted by descending score -/

/-- C1. For every implementation of `std::sort`, every corpus and every query,
the sequence returned by `scoreDocuments` is sorted by score in descending
order: for all positions `i < j` of the result, the score at `i` is at least
the score at `j`. -/
theorem scoreDocuments_sorted_descending (S : StdSort) (documentTexts : CorpusMap)
    (query : Str) (i j : Nat) (hij : i < j)
    (hj : j < (scoreDocuments S documentTexts query).length) :
    ((scoreDocuments S documentTexts query).get ⟨i, hij.trans hj⟩).score ≥
      ((scoreDocuments S documentTexts query).get ⟨j, hj⟩).score :=
  List.pairwise_iff_get.mp (scoreDocuments_pairwise S documentTexts query)
    ⟨i, hij.trans hj⟩ ⟨j, hj⟩ hij

/-- Witness of C1: positions 0 and 1 of the ranking of the sample corpus. -/
theorem scoreDocuments_sorted_descending_witness :
    ∃ (h0 : 0 < (scoreDocuments stableStdSort sampleCorpus sampleQuery).length)
      (h1 : 1 < (scoreDocuments stableStdSort sampleCorpus sampleQuery).length),
      ((scoreDocuments stableStdSort sampleCorpus sampleQuery).get ⟨0, h0⟩).score ≥
        ((scoreDocuments stableStdSort sampleCorpus sampleQuery).get ⟨1, h1⟩).score :=
  have h1 : 1 < (scoreDocuments stableStdSort sampleCorpus sampleQuery).length := by
    rw [scoreDocuments_length]; decide
  ⟨Nat.zero_lt_one.trans h1, h1,
    scoreDocuments_sorted_descending stableStdSort sampleCorpus sampleQuery 0 1
      Nat.zero_lt_one h1⟩

/-! ## C2: the tokenizer -/

theorem specTokenize_nil : specTokenize [] = [] := by decide

theorem specTokenize_cons_space (c : Char) (s : Str) (hc : isspace c = true) :
    specTokenize (c :: s) = specTokenize s := by
  simp [specTokenize, List.splitOnP_cons, hc]

theorem specTokenize_dropWhile_space (s : Str) :
    specTokenize (s.dropWhile isspace) = specTokenize s := by
  induction s with
  | nil => rfl
  | cons c s ih =>
    by_cases hc : isspace c = true
    · rw [List.dropWhile_cons_of_pos hc, ih, specTokenize_cons_space c s hc]
    · rw [List.dropWhile_cons_of_neg hc]

theorem specTokenize_word_append (w rest : Str) (hw : ∀ c ∈ w, ¬ isspace c = true)
    (hrest : ∀ c ∈ rest.head?, isspace c = true) :
    specTokenize (w ++ rest) =
      (if !((w.map tolower).filter isalnum).isEmpty &&
          !(STOP_WORDS.contains ((w.map tolower).filter isalnum)) then
        [(w.map tolower).filter isalnum] else []) ++ specTokenize rest := by
  cases rest with
  | nil =>
    rw [List.append_nil, specTokenize_nil, List.append_nil]
    simp only [specTokenize, List.splitOnP_eq_single isspace w hw, List.map_cons, List.map_nil,
      List.filter_cons, List.filter_nil]
    split <;> split <;> simp_all
  | cons d r =>
    have hd : isspace d = true := hrest d (by simp)
    rw [specTokenize_cons_space d r hd]
    simp only [specTokenize, List.splitOnP_first isspace w hw d hd r, List.map_cons,
      List.filter_cons]
    split <;> split <;> simp_all

theorem tokenizeLoop_eq_spec (fuel : Nat) (ss : Str) (tokens : List Str)
    (hfuel : ss.length ≤ fuel) :
    tokenizeLoop fuel ss tokens = tokens ++ specTokenize ss := by
  induction fuel generalizing ss tokens with
  | zero =>
    have h0 : ss = [] := List.length_eq_zero.mp (Nat.le_zero.mp hfuel)
    subst h0
    simp [tokenizeLoop, specTokenize_nil]
  | succ fuel ih =>
    rw [← specTokenize_dropWhile_space ss]
    unfold tokenizeLoop extractWord
    cases hs : ss.dropWhile isspace with
    | nil => simp [specTokenize_nil]
    | cons c s1 =>
      have hc : ¬ isspace c = true := by
        have := List.head_dropWhile_not isspace ss (by simp [hs])
        simpa [hs] using this
      have hlen : (c :: s1).length ≤ ss.length := by
        rw [← hs]; exact (List.dropWhile_sublist _).length_le
      have hrest : ((c :: s1).dropWhile (fun c => !isspace c)).length ≤ fuel := by
        rw [List.dropWhile_cons_of_pos (by simpa using hc)]
        have := (List.dropWhile_sublist (fun c => !isspace c) (l := s1)).length_le
        simp only [List.length_cons] at hlen
        omega
      have hsplit := specTokenize_word_append ((c :: s1).takeWhile (fun c => !isspace c))
        ((c :: s1).dropWhile (fun c => !isspace c))
        (fun x hx => by simpa using List.mem_takeWhile_imp hx)
        (fun x hx => by
          rw [Option.mem_def] at hx
          have hne : (c :: s1).dropWhile (fun c => !isspace c) ≠ [] := by
            intro h0; rw [h0] at hx; simp at hx
          have := List.head_dropWhile_not (fun c => !isspace c) (c :: s1) hne
          rw [List.head?_eq_head hne] at hx
          cases hx
          simpa using this)
      rw [List.takeWhile_append_dropWhile] at hsplit
      rw [hsplit]
      simp only [List.isEmpty_cons, Bool.false_eq_true, if_false]
      split
      · rw [ih _ _ hrest]; simp
      · rw [ih _ _ hrest]; simp

/-- C2. For every input text `tokenizeAndPreprocess` returns, in input order
and with duplicates kept, exactly the whitespace-separated words after
lowercasing and deleting every non-alphanumeric character, with the words that
became empty and the stop words removed.  In particular
`"The Quick, Quick Fox!"` gives `["quick", "quick", "fox"]` and the empty text
gives the empty sequence. -/
theorem tokenizeAndPreprocess_spec :
    (∀ text : Str, tokenizeAndPreprocess text = specTokenize text) ∧
    tokenizeAndPreprocess "The Quick, Quick Fox!".toList =
      ["quick".toList, "quick".toList, "fox".toList] ∧
    tokenizeAndPreprocess [] = [] := by
  refine ⟨fun text => ?_, by decide, by decide⟩
  unfold tokenizeAndPreprocess
  rw [tokenizeLoop_eq_spec _ _ _ (le_refl _)]
  simp

/-! ## C3: inverse document frequency -/

theorem vecFind_ne_length_iff (term : Str) (tokens : List Str) :
    vecFind term tokens ≠ tokens.length ↔ term ∈ tokens := by
  induction tokens with
  | nil => simp [vecFind]
  | cons t tokens ih =>
    by_cases ht : t = term
    · simp [vecFind, ht]
    · have hne : ¬ term = t := fun h => ht h.symm
      simp [vecFind, ht, hne, ih]

theorem countDocs_eq (term : Str) (tokenizedDocs : TokenizedCorpus) (docCount : Int) :
    countDocs term tokenizedDocs docCount =
      docCount + (documentFrequency term tokenizedDocs : Int) := by
  induction tokenizedDocs generalizing docCount with
  | nil => simp [countDocs, documentFrequency]
  | cons pair docs ih =>
    have hstep : countDocs term (pair :: docs) docCount =
        countDocs term docs
          (if vecFind term pair.2 ≠ pair.2.length then docCount + 1 else docCount) := rfl
    rw [hstep, ih]
    by_cases hmem : term ∈ pair.2
    · rw [if_pos ((vecFind_ne_length_iff term pair.2).mpr hmem)]
      simp only [documentFrequency, List.filter_cons, hmem, decide_True, if_true,
        List.length_cons]
      push_cast
      ring
    · rw [if_neg (fun h => hmem ((vecFind_ne_length_iff term pair.2).mp h))]
      simp [documentFrequency, List.filter_cons, hmem]

theorem calculateIdf_eq (term : Str) (tokenizedDocs : TokenizedCorpus) :
    calculateIdf term tokenizedDocs =
      Real.log ((tokenizedDocs.length : ℝ) /
        (1 + (documentFrequency term tokenizedDocs : ℝ))) := by
  unfold calculateIdf
  simp only [countDocs_eq]
  norm_num

theorem documentFrequency_of_all (term : Str) (tokenizedDocs : TokenizedCorpus)
    (hall : ∀ pair ∈ tokenizedDocs, term ∈ pair.2) :
    documentFrequency term tokenizedDocs = tokenizedDocs.length := by
  unfold documentFrequency
  rw [List.filter_eq_self.mpr]
  intro pair hp
  simpa using hall pair hp

/-- C3. For every tokenized corpus of `N ≥ 1` documents and every term,
`calculateIdf` returns `ln (N / (1 + df))`, where `df` is the number of
documents whose token sequence contains the term at least once.  When the term
occurs in every one of the `N` documents the result is `ln (N / (N + 1))`,
which is strictly negative: it is not clamped to zero. -/
theorem calculateIdf_spec (term : Str) (tokenizedDocs : TokenizedCorpus)
    (hN : 1 ≤ tokenizedDocs.length) :
    calculateIdf term tokenizedDocs =
        Real.log ((tokenizedDocs.length : ℝ) /
          (1 + (documentFrequency term tokenizedDocs : ℝ))) ∧
    ((∀ pair ∈ tokenizedDocs, term ∈ pair.2) →
      calculateIdf term tokenizedDocs =
          Real.log ((tokenizedDocs.length : ℝ) / ((tokenizedDocs.length : ℝ) + 1)) ∧
        calculateIdf term tokenizedDocs < 0) := by
  refine ⟨calculateIdf_eq term tokenizedDocs, fun hall => ?_⟩
  have hpos : (0 : ℝ) < (tokenizedDocs.length : ℝ) := by exact_mod_cast hN
  have heq : calculateIdf term tokenizedDocs =
      Real.log ((tokenizedDocs.length : ℝ) / ((tokenizedDocs.length : ℝ) + 1)) := by
    rw [calculateIdf_eq, documentFrequency_of_all term tokenizedDocs hall, add_comm]
  refine ⟨heq, ?_⟩
  rw [heq]
  apply Real.log_neg
  · positivity
  · rw [div_lt_one (by positivity)]
    linarith

/-- Witness of C3: the term `cat` occurs in both documents of `catDocs`, and
its inverse document frequency is negative. -/
theorem calculateIdf_spec_witness :
    1 ≤ catDocs.length ∧ (∀ pair ∈ catDocs, "cat".toList ∈ pair.2) ∧
      documentFrequency "cat".toList catDocs = 2 ∧
      calculateIdf "cat".toList catDocs < 0 :=
  ⟨by decide, by decide, by decide,
    ((calculateIdf_spec "cat".toList catDocs (by decide)).2 (by decide)).2⟩

/-! ## C4: the fallback decision -/

/-- C4. For every ranked result list the fallback decision of `main` is true
exactly when the list has fewer than 5 results or its top score is below 0.5,
where the top score is the score of the first result, or 0 when the list is
empty.  Hence: 3 results with top score 0.9 give true; 6 results with top
score 0.3 give true; 6 results with top score 0.7 give false; the empty list
gives true. -/
theorem fallbackNeeded_spec :
    (∀ localResults : List DocumentScore,
      fallbackNeeded localResults = true ↔
        (localResults.length < 5 ∨
          (localResults.head?.map DocumentScore.score).getD 0 < 1 / 2)) ∧
    (∀ (p : Str) (r2 r3 : DocumentScore), fallbackNeeded [⟨p, 0.9⟩, r2, r3] = true) ∧
    (∀ (p : Str) (r2 r3 r4 r5 r6 : DocumentScore),
      fallbackNeeded [⟨p, 0.3⟩, r2, r3, r4, r5, r6] = true) ∧
    (∀ (p : Str) (r2 r3 r4 r5 r6 : DocumentScore),
      fallbackNeeded [⟨p, 0.7⟩, r2, r3, r4, r5, r6] = false) ∧
    fallbackNeeded [] = true := by
  refine ⟨fun localResults => ?_, ?_, ?_, ?_, ?_⟩
  · cases localResults with
    | nil => simp [fallbackNeeded]
    | cons top rest =>
      simp only [fallbackNeeded, topScoreRaw, MIN_ABSOLUTE_SCORE_THRESHOLD, Bool.or_eq_true,
        decide_eq_true_eq, List.head?_cons, Option.map_some', Option.getD_some]
      norm_num
  · intro p r2 r3
    simp [fallbackNeeded]
  · intro p r2 r3 r4 r5 r6
    simp only [fallbackNeeded, topScoreRaw, MIN_ABSOLUTE_SCORE_THRESHOLD, Bool.or_eq_true,
      decide_eq_true_eq]
    right
    norm_num
  · intro p r2 r3 r4 r5 r6
    simp only [fallbackNeeded, topScoreRaw, MIN_ABSOLUTE_SCORE_THRESHOLD, Bool.or_eq_false_iff,
      decide_eq_false_iff_not, List.length_cons, List.length_nil]
    constructor <;> norm_num
  · simp [fallbackNeeded]

/-! ## C5: the exact phrase bonus -/

theorem strFindFrom_isSome_iff (needle hay : Str) (pos : Nat) :
    (strFindFrom needle hay pos).isSome = true ↔ needle <:+: hay := by
  induction hay generalizing pos with
  | nil =>
    cases needle <;> simp [strFindFrom]
  | cons c hay ih =>
    unfold strFindFrom
    rw [List.infix_cons_iff]
    by_cases hp : needle.isPrefixOf (c :: hay) = true
    · rw [if_pos hp]
      simp [List.isPrefixOf_iff_prefix.mp hp]
    · rw [if_neg hp, ih]
      have hnp : ¬ needle <+: c :: hay := fun h => hp (List.isPrefixOf_iff_prefix.mpr h)
      simp [hnp]

theorem phraseMatches_iff (docText query : Str) :
    phraseMatches docText query = true ↔
      (5 < query.length ∧ toLowerRaw query <:+: toLowerRaw docText) := by
  simp [phraseMatches, strFind, strFindFrom_isSome_iff]

theorem addPhraseBonus_eq (relevanceSum : ℝ) (docText query : Str) :
    addPhraseBonus relevanceSum docText query =
      relevanceSum +
        (if 5 < query.length ∧ toLowerRaw query <:+: toLowerRaw docText then 100 else 0) := by
  unfold addPhraseBonus
  by_cases h : phraseMatches docText query = true
  · rw [if_pos h, if_pos ((phraseMatches_iff docText query).mp h)]
    norm_num
  · rw [if_neg h, if_neg (fun h2 => h ((phraseMatches_iff docText query).mpr h2))]
    simp

/-- C5. For every document and query, the exact phrase bonus that
`scoreDocuments` adds to the relevance sum of the document is exactly 100 when
the query is longer than 5 characters and the lowercased query is a substring
of the lowercased raw document text, and exactly 0 otherwise.  So a query of
length at most 5 never receives the bonus, and a matching query of length 6
receives one single +100. -/
theorem phraseBonus_spec (tokenizedDocs : TokenizedCorpus) (queryTokens : List Str)
    (idfScores : StdMap ℝ) (query : Str) (docPair : Str × Str) :
    (scoreDocument tokenizedDocs queryTokens idfScores query docPair).score =
        (termRelevance queryTokens (countTerms (mapAtOr tokenizedDocs docPair.1 [])) idfScores +
          (if 5 < query.length ∧ toLowerRaw query <:+: toLowerRaw docPair.2 then 100 else 0)) /
          Real.sqrt (docLengthOf (mapAtOr tokenizedDocs docPair.1 [])) ∧
    (∀ relevanceSum : ℝ,
      addPhraseBonus relevanceSum docPair.2 query =
        relevanceSum +
          (if 5 < query.length ∧ toLowerRaw query <:+: toLowerRaw docPair.2
            then 100 else 0)) ∧
    (query.length ≤ 5 →
      ∀ relevanceSum : ℝ, addPhraseBonus relevanceSum docPair.2 query = relevanceSum) ∧
    (query.length = 6 → toLowerRaw query <:+: toLowerRaw docPair.2 →
      ∀ relevanceSum : ℝ, addPhraseBonus relevanceSum docPair.2 query = relevanceSum + 100) := by
  refine ⟨?_, fun r => addPhraseBonus_eq r docPair.2 query, fun hlen r => ?_,
    fun hlen hsub r => ?_⟩
  · simp only [scoreDocument, addPhraseBonus_eq]
  · rw [addPhraseBonus_eq, if_neg (fun h => absurd h.1 (by omega))]
    simp
  · rw [addPhraseBonus_eq, if_pos ⟨by omega, hsub⟩]

/-- Witness of C5: the five-character query `hello` is a substring of the
document and gets no bonus; the six-character query `banana` occurs twice in
the document, case-insensitively, and gets 100 once. -/
theorem phraseBonus_spec_witness :
    ("hello".toList.length ≤ 5 ∧
      toLowerRaw "hello".toList <:+: toLowerRaw "Hello hello world".toList ∧
      addPhraseBonus 0 "Hello hello world".toList "hello".toList = 0) ∧
    ("banana".toList.length = 6 ∧
      addPhraseBonus 0 "Banana or BANANA".toList "banana".toList = 0 + 100) :=
  ⟨⟨by decide, by decide,
      (phraseBonus_spec [] [] [] "hello".toList
        ("d".toList, "Hello hello world".toList)).2.2.1 (by decide) 0⟩,
    ⟨by decide,
      (phraseBonus_spec [] [] [] "banana".toList
        ("d".toList, "Banana or BANANA".toList)).2.2.2 (by decide) (by decide) 0⟩⟩

/-! ## C6: term frequency and the relevance sum -/

theorem termRelevance_foldl_le (queryTokens : List Str) (tf1 tf2 : StdMap Int)
    (idfScores : StdMap ℝ) (t : Str)
    (hother : ∀ k : Str, k ≠ t → mapAtOr tf2 k 0 = mapAtOr tf1 k 0)
    (h1 : 1 ≤ mapAtOr tf1 t 0) (hlt : mapAtOr tf1 t 0 < mapAtOr tf2 t 0)
    (hidf : 0 ≤ mapAtOr idfScores t 0.0) (acc1 acc2 : ℝ) (hacc : acc1 ≤ acc2) :
    queryTokens.foldl
        (fun relevanceSum term =>
          let tfRaw : Int := mapAtOr tf1 term 0
          if tfRaw > 0 then
            let tfSaturated : ℝ := 1.0 + Real.log (tfRaw : ℝ)
            let idf : ℝ := mapAtOr idfScores term 0.0
            relevanceSum + tfSaturated * idf
          else relevanceSum) acc1 ≤
      queryTokens.foldl
        (fun relevanceSum term =>
          let tfRaw : Int := mapAtOr tf2 term 0
          if tfRaw > 0 then
            let tfSaturated : ℝ := 1.0 + Real.log (tfRaw : ℝ)
            let idf : ℝ := mapAtOr idfScores term 0.0
            relevanceSum + tfSaturated * idf
          else relevanceSum) acc2 := by
  induction queryTokens generalizing acc1 acc2 with
  | nil => simpa using hacc
  | cons term queryTokens ih =>
    simp only [List.foldl_cons]
    apply ih
    by_cases hterm : term = t
    · subst hterm
      have hp1 : mapAtOr tf1 term 0 > 0 := by omega
      have hp2 : mapAtOr tf2 term 0 > 0 := by omega
      rw [if_pos hp1, if_pos hp2]
      have hr1 : (0 : ℝ) < ((mapAtOr tf1 term 0 : Int) : ℝ) := by exact_mod_cast hp1
      have hr12 : ((mapAtOr tf1 term 0 : Int) : ℝ) ≤ ((mapAtOr tf2 term 0 : Int) : ℝ) := by
        exact_mod_cast hlt.le
      have hlog := Real.log_le_log hr1 hr12
      have hmul := mul_le_mul_of_nonneg_right
        (add_le_add_left hlog (1.0 : ℝ)) hidf
      linarith
    · rw [hother term hterm]
      split <;> linarith

theorem calculateIdf_single_cat (tokens : List Str) (hmem : "cat".toList ∈ tokens) :
    calculateIdf "cat".toList [("d".toList, tokens)] = Real.log (1 / 2) := by
  rw [calculateIdf_eq, documentFrequency_of_all _ _ (by simpa using hmem)]
  norm_num

theorem calculateIdf_one_of_four (term : Str) (tokenizedDocs : TokenizedCorpus)
    (hlen : tokenizedDocs.length = 4) (hdf : documentFrequency term tokenizedDocs = 1) :
    calculateIdf term tokenizedDocs = Real.log 2 := by
  rw [calculateIdf_eq, hlen, hdf]
  norm_num

/-- Counterexample to C6 as stated, in two parts.

Negative IDF: in the one-document corpora `catOnce` and `catTwice` the query
`cat` has the same IDF table, holding `ln (1/2)` for `cat`; the raw term
frequency of `cat` is 1 in the first document and 2 in the second; neither
document gets the phrase bonus; and the relevance sum of the second document
is strictly smaller.

Lost phrase bonus: in the corpora `bonusBefore` and `bonusAfter` the query
`social media` has the same IDF table, holding `ln 2` for both terms; the
first document goes from `social media` to `media social social`, so the
count of `social` goes from 1 to 2 and no other count changes; the reworded
text no longer contains the query, and its relevance sum is strictly
smaller. -/
theorem relevanceSum_not_monotone :
    (buildIdfScores (tokenizeAndPreprocess "cat".toList) (tokenizeCorpus catTwice) =
        buildIdfScores (tokenizeAndPreprocess "cat".toList) (tokenizeCorpus catOnce) ∧
    mapFind (buildIdfScores (tokenizeAndPreprocess "cat".toList) (tokenizeCorpus catOnce))
        "cat".toList = some (Real.log (1 / 2)) ∧
    mapAtOr (countTerms (tokenizeAndPreprocess "cat".toList)) "cat".toList 0 = 1 ∧
    mapAtOr (countTerms (tokenizeAndPreprocess "cat cat".toList)) "cat".toList 0 = 2 ∧
    addPhraseBonus
        (termRelevance (tokenizeAndPreprocess "cat".toList)
          (countTerms (tokenizeAndPreprocess "cat cat".toList))
          (buildIdfScores (tokenizeAndPreprocess "cat".toList) (tokenizeCorpus catOnce)))
        "cat cat".toList "cat".toList <
      addPhraseBonus
        (termRelevance (tokenizeAndPreprocess "cat".toList)
          (countTerms (tokenizeAndPreprocess "cat".toList))
          (buildIdfScores (tokenizeAndPreprocess "cat".toList) (tokenizeCorpus catOnce)))
        "cat".toList "cat".toList) ∧
    (buildIdfScores (tokenizeAndPreprocess bonusQuery) (tokenizeCorpus bonusAfter) =
        buildIdfScores (tokenizeAndPreprocess bonusQuery) (tokenizeCorpus bonusBefore) ∧
    mapFind (buildIdfScores (tokenizeAndPreprocess bonusQuery) (tokenizeCorpus bonusBefore))
        "social".toList = some (Real.log 2) ∧
    mapFind (buildIdfScores (tokenizeAndPreprocess bonusQuery) (tokenizeCorpus bonusBefore))
        "media".toList = some (Real.log 2) ∧
    (0 : ℝ) ≤ Real.log 2 ∧
    mapAtOr (countTerms (tokenizeAndPreprocess "social media".toList)) "social".toList 0 = 1 ∧
    mapAtOr (countTerms (tokenizeAndPreprocess "media social social".toList))
        "social".toList 0 = 2 ∧
    (∀ k : Str, k ≠ "social".toList →
      mapAtOr (countTerms (tokenizeAndPreprocess "media social social".toList)) k 0 =
        mapAtOr (countTerms (tokenizeAndPreprocess "social media".toList)) k 0) ∧
    addPhraseBonus
        (termRelevance (tokenizeAndPreprocess bonusQuery)
          (countTerms (tokenizeAndPreprocess "media social social".toList))
          (buildIdfScores (tokenizeAndPreprocess bonusQuery) (tokenizeCorpus bonusBefore)))
        "media social social".toList bonusQuery <
      addPhraseBonus
        (termRelevance (tokenizeAndPreprocess bonusQuery)
          (countTerms (tokenizeAndPreprocess "social media".toList))
          (buildIdfScores (tokenizeAndPreprocess bonusQuery) (tokenizeCorpus bonusBefore)))
        "social media".toList bonusQuery) := by
  have hlog2 : 0 < Real.log 2 := Real.log_pos (by norm_num)
  constructor
  · have hq : tokenizeAndPreprocess "cat".toList = ["cat".toList] := by decide
    have hd2 : tokenizeAndPreprocess "cat cat".toList = ["cat".toList, "cat".toList] := by
      decide
    have hc1 : tokenizeCorpus catOnce = [("d".toList, ["cat".toList])] := by decide
    have hc2 : tokenizeCorpus catTwice = [("d".toList, ["cat".toList, "cat".toList])] := by
      decide
    have ht1 : countTerms ["cat".toList] = [("cat".toList, 1)] := by decide
    have ht2 : countTerms ["cat".toList, "cat".toList] = [("cat".toList, 2)] := by decide
    have hidf1 : buildIdfScores ["cat".toList] [("d".toList, ["cat".toList])] =
        [("cat".toList, Real.log (1 / 2))] := by
      simp only [buildIdfScores, List.foldl_cons, List.foldl_nil, mapFind, Option.isNone_none,
        if_true, mapSet]
      rw [calculateIdf_single_cat _ (by decide)]
    have hidf2 : buildIdfScores ["cat".toList] [("d".toList, ["cat".toList, "cat".toList])] =
        [("cat".toList, Real.log (1 / 2))] := by
      simp only [buildIdfScores, List.foldl_cons, List.foldl_nil, mapFind, Option.isNone_none,
        if_true, mapSet]
      rw [calculateIdf_single_cat _ (by decide)]
    rw [hq, hd2, hc1, hc2, ht1, ht2, hidf1, hidf2]
    refine ⟨rfl, by simp [mapFind], by decide, by decide, ?_⟩
    have hhalf : Real.log (1 / 2) = -Real.log 2 := by
      rw [one_div, Real.log_inv]
    have hb1 : phraseMatches "cat".toList "cat".toList = false := by decide
    have hb2 : phraseMatches "cat cat".toList "cat".toList = false := by decide
    simp only [addPhraseBonus, hb1, hb2, Bool.false_eq_true, if_false, termRelevance,
      List.foldl_cons, List.foldl_nil, mapAtOr, mapFind, if_true]
    norm_num
    rw [hhalf]
    nlinarith
  · have hq : tokenizeAndPreprocess bonusQuery = ["social".toList, "media".toList] := by
      decide
    have hidf : ∀ corpus : CorpusMap, (tokenizeCorpus corpus).length = 4 →
        documentFrequency "social".toList (tokenizeCorpus corpus) = 1 →
        documentFrequency "media".toList (tokenizeCorpus corpus) = 1 →
        buildIdfScores ["social".toList, "media".toList] (tokenizeCorpus corpus) =
          [("media".toList, Real.log 2), ("social".toList, Real.log 2)] := by
      intro corpus hlen hs hm
      have hne : ¬ "media".toList = "social".toList := by decide
      have hlt : "media".toList < "social".toList := by decide
      simp only [buildIdfScores, List.foldl_cons, List.foldl_nil, mapFind, Option.isNone_none,
        if_true, mapSet, if_neg hne, if_pos hlt,
        calculateIdf_one_of_four _ _ hlen hs, calculateIdf_one_of_four _ _ hlen hm]
    have htable1 := hidf bonusBefore (by decide) (by decide) (by decide)
    have htable2 := hidf bonusAfter (by decide) (by decide) (by decide)
    have hd1 : countTerms (tokenizeAndPreprocess "social media".toList) =
        [("media".toList, 1), ("social".toList, 1)] := by decide
    have hd2 : countTerms (tokenizeAndPreprocess "media social social".toList) =
        [("media".toList, 1), ("social".toList, 2)] := by decide
    have hb1 : phraseMatches "social media".toList bonusQuery = true := by decide
    have hb2 : phraseMatches "media social social".toList bonusQuery = false := by decide
    rw [hq, htable1, htable2, hd1, hd2]
    have hne : ¬ "social".toList = "media".toList := by decide
    refine ⟨rfl, ?_, ?_, hlog2.le, by decide, by decide, ?_, ?_⟩
    · simp only [mapFind, if_neg hne, if_true]
    · simp only [mapFind, if_true]
    · intro k hk
      simp only [mapAtOr, mapFind, if_neg hk]
    · have hlog1 : Real.log 2 ≤ 1 := by
        have := Real.log_le_sub_one_of_pos (show (0 : ℝ) < 2 by norm_num)
        linarith
      simp only [addPhraseBonus, hb1, hb2, Bool.false_eq_true, if_false, if_true,
        termRelevance, List.foldl_cons, List.foldl_nil, mapAtOr, mapFind, if_neg hne]
      norm_num
      nlinarith

/-- C6, amended. For a fixed query and a fixed IDF table, raising the raw
term frequency of a term from `tf ≥ 1` to a larger value, all other term
counts unchanged, never decreases the relevance sum that the term loop
accumulates, provided the IDF that the table holds for that term is not
negative; and it never decreases the relevance sum after the exact phrase
bonus either, provided in addition that the changed text gets the bonus
whenever the original text did. -/
theorem relevanceSum_monotone_of_idf_nonneg (queryTokens : List Str) (tf1 tf2 : StdMap Int)
    (idfScores : StdMap ℝ) (t : Str)
    (hother : ∀ k : Str, k ≠ t → mapAtOr tf2 k 0 = mapAtOr tf1 k 0)
    (h1 : 1 ≤ mapAtOr tf1 t 0) (hlt : mapAtOr tf1 t 0 < mapAtOr tf2 t 0)
    (hidf : 0 ≤ mapAtOr idfScores t 0.0) :
    termRelevance queryTokens tf1 idfScores ≤ termRelevance queryTokens tf2 idfScores ∧
    ∀ docText1 docText2 query : Str,
      (phraseMatches docText1 query = true → phraseMatches docText2 query = true) →
      addPhraseBonus (termRelevance queryTokens tf1 idfScores) docText1 query ≤
        addPhraseBonus (termRelevance queryTokens tf2 idfScores) docText2 query := by
  have hle : termRelevance queryTokens tf1 idfScores ≤
      termRelevance queryTokens tf2 idfScores :=
    termRelevance_foldl_le queryTokens tf1 tf2 idfScores t hother h1 hlt hidf _ _ (le_refl _)
  refine ⟨hle, fun docText1 docText2 query hbonus => ?_⟩
  unfold addPhraseBonus
  by_cases hb1 : phraseMatches docText1 query = true
  · rw [if_pos hb1, if_pos (hbonus hb1)]
    linarith
  · rw [if_neg hb1]
    split
    · have h100 : (0 : ℝ) ≤ 100.0 := by norm_num
      linarith
    · exact hle

/-- Witness of C6, amended: with the IDF `ln 2` for both query terms, going
from the text `social media` to `social media social` raises the count of
`social` from 1 to 2, changes no other count and keeps the phrase bonus; the
relevance sum does not go down. -/
theorem relevanceSum_monotone_of_idf_nonneg_witness :
    (0 : ℝ) ≤ mapAtOr [("media".toList, Real.log 2), ("social".toList, Real.log 2)]
      "social".toList 0.0 ∧
    mapAtOr (countTerms (tokenizeAndPreprocess "social media".toList)) "social".toList 0 = 1 ∧
    mapAtOr (countTerms (tokenizeAndPreprocess "social media social".toList))
      "social".toList 0 = 2 ∧
    phraseMatches "social media".toList bonusQuery = true ∧
    phraseMatches "social media social".toList bonusQuery = true ∧
    addPhraseBonus
        (termRelevance (tokenizeAndPreprocess bonusQuery)
          (countTerms (tokenizeAndPreprocess "social media".toList))
          [("media".toList, Real.log 2), ("social".toList, Real.log 2)])
        "social media".toList bonusQuery ≤
      addPhraseBonus
        (termRelevance (tokenizeAndPreprocess bonusQuery)
          (countTerms (tokenizeAndPreprocess "social media social".toList))
          [("media".toList, Real.log 2), ("social".toList, Real.log 2)])
        "social media social".toList bonusQuery :=
  have hne : ¬ "social".toList = "media".toList := by decide
  have hidf : (0 : ℝ) ≤ mapAtOr [("media".toList, Real.log 2), ("social".toList, Real.log 2)]
      "social".toList 0.0 := by
    simp only [mapAtOr, mapFind, if_neg hne, if_true]
    exact Real.log_nonneg (by norm_num)
  have hd1 : countTerms (tokenizeAndPreprocess "social media".toList) =
      [("media".toList, 1), ("social".toList, 1)] := by decide
  have hd2 : countTerms (tokenizeAndPreprocess "social media social".toList) =
      [("media".toList, 1), ("social".toList, 2)] := by decide
  ⟨hidf, by decide, by decide, by decide, by decide,
    (relevanceSum_monotone_of_idf_nonneg (tokenizeAndPreprocess bonusQuery)
      (countTerms (tokenizeAndPreprocess "social media".toList))
      (countTerms (tokenizeAndPreprocess "social media social".toList))
      [("media".toList, Real.log 2), ("social".toList, Real.log 2)] "social".toList
      (fun k hk => by
        rw [hd1, hd2]
        simp only [mapAtOr, mapFind, if_neg hk])
      (by decide) (by decide) hidf).2 "social media".toList "social media social".toList
      bonusQuery (fun _ => by decide)⟩

/-! ## Facts about the maps built by `scoreDocuments` -/

theorem mapFind_mapSet {β : Type} (m : StdMap β) (k k' : Str) (v : β) :
    mapFind (mapSet k v m) k' = if k' = k then some v else mapFind m k' := by
  induction m with
  | nil => simp [mapSet, mapFind]
  | cons e m ih =>
    obtain ⟨k0, v0⟩ := e
    unfold mapSet
    by_cases h1 : k = k0
    · subst h1
      simp only [if_true, mapFind]
      by_cases h : k' = k <;> simp [h]
    · rw [if_neg h1]
      by_cases h2 : k < k0
      · rw [if_pos h2]
        simp only [mapFind]
      · rw [if_neg h2]
        simp only [mapFind, ih]
        by_cases h3 : k' = k0
        · subst h3
          rw [if_pos rfl, if_neg (fun h => h1 h.symm), if_pos rfl]
        · simp [h3]

theorem mapFind_eq_none_of_not_mem {β : Type} (m : StdMap β) (k : Str)
    (hk : k ∉ m.map Prod.fst) : mapFind m k = none := by
  induction m with
  | nil => rfl
  | cons e m ih =>
    simp only [List.map_cons, List.mem_cons, not_or] at hk
    simp only [mapFind, if_neg hk.1]
    exact ih hk.2

theorem MapOrdered.not_mem_tail {β : Type} {e : Str × β} {m : StdMap β}
    (h : MapOrdered (e :: m)) : e.1 ∉ m.map Prod.fst := by
  intro hmem
  obtain ⟨e2, he2, heq⟩ := List.mem_map.mp hmem
  have hlt := (List.pairwise_cons.mp h).1 e2 he2
  rw [heq] at hlt
  exact lt_irrefl _ hlt

theorem MapOrdered.tail {β : Type} {e : Str × β} {m : StdMap β}
    (h : MapOrdered (e :: m)) : MapOrdered m :=
  (List.pairwise_cons.mp h).2

theorem mapFind_of_mem {β : Type} (m : StdMap β) (hord : MapOrdered m) (e : Str × β)
    (he : e ∈ m) : mapFind m e.1 = some e.2 := by
  induction m with
  | nil => simp at he
  | cons e0 m ih =>
    rcases List.mem_cons.mp he with h | h
    · subst h
      simp [mapFind]
    · have hne : ¬ e.1 = e0.1 := by
        intro heq
        exact hord.not_mem_tail (heq ▸ List.mem_map_of_mem Prod.fst h)
      simp only [mapFind, if_neg hne]
      exact ih hord.tail h

theorem mapFind_tokenize_foldl (documentTexts : CorpusMap) (hord : MapOrdered documentTexts)
    (acc : TokenizedCorpus) (k : Str) :
    mapFind
        (documentTexts.foldl
          (fun tokenizedDocs pair =>
            mapSet pair.1 (tokenizeAndPreprocess pair.2) tokenizedDocs) acc) k =
      match mapFind documentTexts k with
      | some text => some (tokenizeAndPreprocess text)
      | none => mapFind acc k := by
  induction documentTexts generalizing acc with
  | nil => simp [mapFind]
  | cons e m ih =>
    simp only [List.foldl_cons]
    rw [ih hord.tail, mapFind_mapSet]
    by_cases hk : k = e.1
    · subst hk
      rw [mapFind_eq_none_of_not_mem m _ hord.not_mem_tail]
      simp [mapFind]
    · simp [mapFind, hk]

theorem mapAtOr_tokenizeCorpus (documentTexts : CorpusMap) (hord : MapOrdered documentTexts)
    (docPair : Str × Str) (hmem : docPair ∈ documentTexts) :
    mapAtOr (tokenizeCorpus documentTexts) docPair.1 [] = tokenizeAndPreprocess docPair.2 := by
  unfold mapAtOr tokenizeCorpus
  rw [mapFind_tokenize_foldl documentTexts hord, mapFind_of_mem documentTexts hord docPair hmem]

theorem mapFind_idf_foldl (queryTokens : List Str) (tokenizedDocs : TokenizedCorpus)
    (acc : StdMap ℝ) (t : Str) :
    mapFind
        (queryTokens.foldl
          (fun idfScores term =>
            if (mapFind idfScores term).isNone then
              mapSet term (calculateIdf term tokenizedDocs) idfScores
            else idfScores) acc) t =
      if (mapFind acc t).isSome then mapFind acc t
      else if t ∈ queryTokens then some (calculateIdf t tokenizedDocs) else none := by
  induction queryTokens generalizing acc with
  | nil =>
    cases h : mapFind acc t <;> simp [h]
  | cons term queryTokens ih =>
    simp only [List.foldl_cons]
    rw [ih]
    by_cases hnone : (mapFind acc term).isNone = true
    · rw [if_pos hnone, mapFind_mapSet]
      by_cases ht : t = term
      · subst ht
        have hacc : mapFind acc t = none := Option.isNone_iff_eq_none.mp hnone
        simp [hacc]
      · cases h : mapFind acc t <;> simp [ht, h]
    · rw [if_neg hnone]
      by_cases ht : t = term
      · subst ht
        cases h : mapFind acc t
        · simp [h] at hnone
        · simp
      · cases h : mapFind acc t <;> simp [ht, h]

theorem mapAtOr_buildIdfScores (queryTokens : List Str) (tokenizedDocs : TokenizedCorpus)
    (t : Str) (ht : t ∈ queryTokens) :
    mapAtOr (buildIdfScores queryTokens tokenizedDocs) t 0.0 = calculateIdf t tokenizedDocs := by
  unfold mapAtOr buildIdfScores
  rw [mapFind_idf_foldl]
  simp [mapFind, ht]

theorem termRelevance_eq_zero (queryTokens : List Str) (termFrequency : StdMap Int)
    (idfScores : StdMap ℝ)
    (h : ∀ term ∈ queryTokens, mapAtOr termFrequency term 0 > 0 →
      mapAtOr idfScores term 0.0 = 0) :
    termRelevance queryTokens termFrequency idfScores = 0 := by
  unfold termRelevance
  have hgen : ∀ (q : List Str), (∀ term ∈ q, mapAtOr termFrequency term 0 > 0 →
      mapAtOr idfScores term 0.0 = 0) →
      q.foldl
        (fun relevanceSum term =>
          let tfRaw : Int := mapAtOr termFrequency term 0
          if tfRaw > 0 then
            let tfSaturated : ℝ := 1.0 + Real.log (tfRaw : ℝ)
            let idf : ℝ := mapAtOr idfScores term 0.0
            relevanceSum + tfSaturated * idf
          else relevanceSum) (0.0 : ℝ) = 0 := by
    intro q
    induction q with
    | nil => intro _; norm_num
    | cons term q ih =>
      intro hq
      simp only [List.foldl_cons]
      have hstep : (if mapAtOr termFrequency term 0 > 0 then
          (0.0 : ℝ) + (1.0 + Real.log ((mapAtOr termFrequency term 0 : Int) : ℝ)) *
            mapAtOr idfScores term 0.0 else (0.0 : ℝ)) = 0.0 := by
        split
        · rename_i hpos
          rw [hq term (List.mem_cons_self _ _) hpos]
          norm_num
        · rfl
      rw [hstep]
      exact ih (fun t ht => hq t (List.mem_cons_of_mem _ ht))
  exact hgen queryTokens h

/-! ## Evaluation on the sample inputs -/

theorem scoreDocument_eq (tokenizedDocs : TokenizedCorpus) (queryTokens : List Str)
    (idfScores : StdMap ℝ) (query : Str) (docPair : Str × Str) :
    scoreDocument tokenizedDocs queryTokens idfScores query docPair =
      ⟨docPair.1,
        addPhraseBonus
            (termRelevance queryTokens (countTerms (mapAtOr tokenizedDocs docPair.1 []))
              idfScores) docPair.2 query /
          Real.sqrt (docLengthOf (mapAtOr tokenizedDocs docPair.1 []))⟩ :=
  rfl

theorem sample_idf_zero (term : Str) (hterm : term ∈ tokenizeAndPreprocess sampleQuery) :
    mapAtOr (buildIdfScores (tokenizeAndPreprocess sampleQuery) (tokenizeCorpus sampleCorpus))
      term 0.0 = 0 := by
  rw [mapAtOr_buildIdfScores _ _ _ hterm, calculateIdf_eq]
  have hq : tokenizeAndPreprocess sampleQuery =
      ["social".toList, "media".toList, "automation".toList] := by decide
  have hlen : (tokenizeCorpus sampleCorpus).length = 2 := by decide
  have hdf : ∀ t ∈ ["social".toList, "media".toList, "automation".toList],
      documentFrequency t (tokenizeCorpus sampleCorpus) = 1 := by decide
  rw [hq] at hterm
  rw [hlen, hdf term hterm]
  norm_num

theorem unsortedScores_sample :
    unsortedScores sampleCorpus sampleQuery =
      [⟨"docA".toList, 100 / Real.sqrt 5⟩, ⟨"docB".toList, 0⟩] := by
  have hmap : ∀ f : Str × Str → DocumentScore, sampleCorpus.map f =
      [f ("docA".toList, "machine learning social media automation".toList),
        f ("docB".toList, "unrelated cooking recipes".toList)] := fun _ => rfl
  rw [unsortedScores_eq_map, hmap]
  simp only [scoreDocument_eq]
  rw [termRelevance_eq_zero _ _ _ (fun term hterm _ => sample_idf_zero term hterm),
    termRelevance_eq_zero _ _ _ (fun term hterm _ => sample_idf_zero term hterm)]
  have hA : mapAtOr (tokenizeCorpus sampleCorpus) "docA".toList [] =
      ["machine".toList, "learning".toList, "social".toList, "media".toList,
        "automation".toList] := by decide
  have hB : mapAtOr (tokenizeCorpus sampleCorpus) "docB".toList [] =
      ["unrelated".toList, "cooking".toList, "recipes".toList] := by decide
  have hpA : phraseMatches "machine learning social media automation".toList sampleQuery =
      true := by decide
  have hpB : phraseMatches "unrelated cooking recipes".toList sampleQuery = false := by
    decide
  rw [hA, hB]
  simp only [addPhraseBonus, hpA, hpB, if_true, Bool.false_eq_true, if_false, docLengthOf,
    List.length_cons, List.length_nil]
  norm_num

theorem unsortedScores_tie :
    unsortedScores tieCorpus tieQuery =
      tieCorpus.map (fun docPair => (⟨docPair.1, 0⟩ : DocumentScore)) := by
  rw [unsortedScores_eq_map]
  apply List.map_congr_left
  intro docPair hmem
  have hord : MapOrdered tieCorpus := by unfold MapOrdered tieCorpus; decide
  have htok : ∀ p ∈ tieCorpus, tokenizeAndPreprocess p.2 = ["x".toList] := by decide
  have hphrase : ∀ p ∈ tieCorpus, phraseMatches p.2 tieQuery = false := by decide
  have htf : ∀ term ∈ tokenizeAndPreprocess tieQuery,
      ¬ mapAtOr (countTerms ["x".toList]) term 0 > 0 := by decide
  rw [scoreDocument_eq, mapAtOr_tokenizeCorpus tieCorpus hord docPair hmem, htok docPair hmem,
    termRelevance_eq_zero _ _ _ (fun term hterm hpos => absurd hpos (htf term hterm))]
  simp only [addPhraseBonus, hphrase docPair hmem, Bool.false_eq_true, if_false]
  norm_num

theorem eq_of_score_eq_of_pairwise_ne (l : List DocumentScore)
    (hl : l.Pairwise (fun a b => a.score ≠ b.score)) (a b : DocumentScore) (ha : a ∈ l)
    (hb : b ∈ l) (hab : a.score = b.score) : a = b := by
  by_contra hne
  exact hl.forall (fun _ _ h => h.symm) ha hb hne hab

theorem scoreDocuments_unique_of_distinct (S T : StdSort) (documentTexts : CorpusMap)
    (query : Str)
    (hdistinct : (unsortedScores documentTexts query).Pairwise
      (fun a b => a.score ≠ b.score)) :
    scoreDocuments S documentTexts query = scoreDocuments T documentTexts query := by
  have hS := scoreDocuments_perm_unsorted S documentTexts query
  have hT := scoreDocuments_perm_unsorted T documentTexts query
  refine List.Perm.eq_of_sorted ?_ (scoreDocuments_pairwise S documentTexts query)
    (scoreDocuments_pairwise T documentTexts query) (hS.trans hT.symm)
  intro a b ha hb hab hba
  exact eq_of_score_eq_of_pairwise_ne _ hdistinct a b (hS.subset ha) (hT.subset hb)
    (le_antisymm hba hab)

theorem scoreDocuments_stable_eq (documentTexts : CorpusMap) (query : Str) :
    scoreDocuments stableStdSort documentTexts query =
      stableSortBy (fun a b : DocumentScore => a.score > b.score)
        (unsortedScores documentTexts query) := by
  unfold scoreDocuments
  split
  · rename_i h
    have h0 : documentTexts = [] := List.isEmpty_iff.mp h
    subst h0
    simp [unsortedScores, stableSortBy]
  · rfl

/-! ## The sort of libstdc++ commutes with renaming the elements -/

theorem compAt_map {α β : Type} (f : β → α) (lt : α → α → Bool) (v : List β) (i j : Nat) :
    compAt lt (v.map f) i j = compAt (fun a b => lt (f a) (f b)) v i j := by
  unfold compAt
  rw [List.getElem?_map, List.getElem?_map]
  cases v[i]? <;> cases v[j]? <;> rfl

theorem compValAt_map {α β : Type} (f : β → α) (lt : α → α → Bool) (val : β) (v : List β)
    (j : Nat) :
    compValAt lt (f val) (v.map f) j = compValAt (fun a b => lt (f a) (f b)) val v j := by
  unfold compValAt
  rw [List.getElem?_map]
  cases v[j]? <;> rfl

theorem compAtVal_map {α β : Type} (f : β → α) (lt : α → α → Bool) (v : List β) (i : Nat)
    (val : β) :
    compAtVal lt (v.map f) i (f val) = compAtVal (fun a b => lt (f a) (f b)) v i val := by
  unfold compAtVal
  rw [List.getElem?_map]
  cases v[i]? <;> rfl

theorem set_map {α β : Type} (f : β → α) (v : List β) (i : Nat) (a : β) :
    (v.map f).set i (f a) = (v.set i a).map f := by
  induction v generalizing i with
  | nil => rfl
  | cons x v ih =>
    cases i with
    | zero => rfl
    | succ i =>
      simp only [List.map_cons, List.set_cons_succ]
      rw [ih]

theorem iterSwap_map {α β : Type} (f : β → α) (v : List β) (i j : Nat) :
    iterSwap (v.map f) i j = (iterSwap v i j).map f := by
  unfold iterSwap
  rw [List.getElem?_map, List.getElem?_map]
  cases v[i]? <;> cases v[j]? <;> simp only [Option.map_some', Option.map_none', set_map]

theorem assignFrom_map {α β : Type} (f : β → α) (v : List β) (dst src : Nat) :
    assignFrom (v.map f) dst src = (assignFrom v dst src).map f := by
  unfold assignFrom
  rw [List.getElem?_map]
  cases v[src]? <;> simp only [Option.map_some', Option.map_none', set_map]

theorem gnuMoveMedianToFirst_map {α β : Type} (f : β → α) (lt : α → α → Bool) (v : List β)
    (result a b c : Nat) :
    gnuMoveMedianToFirst lt (v.map f) result a b c =
      (gnuMoveMedianToFirst (fun a b => lt (f a) (f b)) v result a b c).map f := by
  unfold gnuMoveMedianToFirst
  simp only [compAt_map, iterSwap_map]
  split_ifs <;> rfl

theorem gnuScanUp_map {α β : Type} (f : β → α) (lt : α → α → Bool) (v : List β)
    (pivot fuel first : Nat) :
    gnuScanUp lt (v.map f) pivot fuel first =
      gnuScanUp (fun a b => lt (f a) (f b)) v pivot fuel first := by
  induction fuel generalizing first with
  | zero => rfl
  | succ fuel ih => simp only [gnuScanUp, compAt_map, ih]

theorem gnuScanDown_map {α β : Type} (f : β → α) (lt : α → α → Bool) (v : List β)
    (pivot fuel last : Nat) :
    gnuScanDown lt (v.map f) pivot fuel last =
      gnuScanDown (fun a b => lt (f a) (f b)) v pivot fuel last := by
  induction fuel generalizing last with
  | zero => rfl
  | succ fuel ih => simp only [gnuScanDown, compAt_map, ih]

theorem gnuUnguardedPartition_map {α β : Type} (f : β → α) (lt : α → α → Bool)
    (pivot fuel : Nat) (v : List β) (first last : Nat) :
    gnuUnguardedPartition lt pivot fuel (v.map f) first last =
      ((gnuUnguardedPartition (fun a b => lt (f a) (f b)) pivot fuel v first last).1.map f,
        (gnuUnguardedPartition (fun a b => lt (f a) (f b)) pivot fuel v first last).2) := by
  induction fuel generalizing v first last with
  | zero => rfl
  | succ fuel ih =>
    simp only [gnuUnguardedPartition, gnuScanUp_map, gnuScanDown_map, List.length_map,
      iterSwap_map, ih]
    split <;> rfl

theorem gnuUnguardedPartitionPivot_map {α β : Type} (f : β → α) (lt : α → α → Bool)
    (v : List β) (first last : Nat) :
    gnuUnguardedPartitionPivot lt (v.map f) first last =
      ((gnuUnguardedPartitionPivot (fun a b => lt (f a) (f b)) v first last).1.map f,
        (gnuUnguardedPartitionPivot (fun a b => lt (f a) (f b)) v first last).2) := by
  simp only [gnuUnguardedPartitionPivot, gnuMoveMedianToFirst_map, List.length_map,
    gnuUnguardedPartition_map]

theorem gnuPushHeap_map {α β : Type} (f : β → α) (lt : α → α → Bool) (first topIndex : Nat)
    (value : β) (fuel : Nat) (v : List β) (holeIndex : Nat) :
    gnuPushHeap lt first topIndex (f value) fuel (v.map f) holeIndex =
      (gnuPushHeap (fun a b => lt (f a) (f b)) first topIndex value fuel v holeIndex).map f := by
  induction fuel generalizing v holeIndex with
  | zero => simp only [gnuPushHeap, set_map]
  | succ fuel ih =>
    simp only [gnuPushHeap, compAtVal_map, assignFrom_map, ih, set_map]
    split <;> rfl

theorem gnuAdjustHeapDown_map {α β : Type} (f : β → α) (lt : α → α → Bool) (first len : Nat)
    (fuel : Nat) (v : List β) (holeIndex secondChild : Nat) :
    gnuAdjustHeapDown lt first len fuel (v.map f) holeIndex secondChild =
      ((gnuAdjustHeapDown (fun a b => lt (f a) (f b)) first len fuel v holeIndex
          secondChild).1.map f,
        (gnuAdjustHeapDown (fun a b => lt (f a) (f b)) first len fuel v holeIndex
          secondChild).2) := by
  induction fuel generalizing v holeIndex secondChild with
  | zero => rfl
  | succ fuel ih =>
    simp only [gnuAdjustHeapDown, compAt_map, assignFrom_map, ih]
    split <;> rfl

theorem gnuAdjustHeap_map {α β : Type} (f : β → α) (lt : α → α → Bool) (v : List β)
    (first holeIndex len : Nat) (value : β) :
    gnuAdjustHeap lt (v.map f) first holeIndex len (f value) =
      (gnuAdjustHeap (fun a b => lt (f a) (f b)) v first holeIndex len value).map f := by
  simp only [gnuAdjustHeap, gnuAdjustHeapDown_map, assignFrom_map, gnuPushHeap_map]
  split <;> rfl

theorem gnuPopHeap_map {α β : Type} (f : β → α) (lt : α → α → Bool) (v : List β)
    (first last result : Nat) :
    gnuPopHeap lt (v.map f) first last result =
      (gnuPopHeap (fun a b => lt (f a) (f b)) v first last result).map f := by
  unfold gnuPopHeap
  rw [List.getElem?_map, List.getElem?_map]
  cases v[result]? <;> cases v[first]? <;>
    simp only [Option.map_some', Option.map_none', set_map, gnuAdjustHeap_map]

theorem gnuMakeHeapFrom_map {α β : Type} (f : β → α) (lt : α → α → Bool) (first len : Nat)
    (parent : Nat) (v : List β) :
    gnuMakeHeapFrom lt first len parent (v.map f) =
      (gnuMakeHeapFrom (fun a b => lt (f a) (f b)) first len parent v).map f := by
  induction parent generalizing v with
  | zero =>
    unfold gnuMakeHeapFrom
    rw [List.getElem?_map]
    cases v[first]? <;> simp only [Option.map_some', Option.map_none', gnuAdjustHeap_map]
  | succ parent ih =>
    unfold gnuMakeHeapFrom
    rw [List.getElem?_map]
    cases v[first + (parent + 1)]? <;>
      simp only [Option.map_some', Option.map_none', gnuAdjustHeap_map, ih]

theorem gnuMakeHeap_map {α β : Type} (f : β → α) (lt : α → α → Bool) (v : List β)
    (first last : Nat) :
    gnuMakeHeap lt (v.map f) first last =
      (gnuMakeHeap (fun a b => lt (f a) (f b)) v first last).map f := by
  simp only [gnuMakeHeap, gnuMakeHeapFrom_map]
  split <;> rfl

theorem gnuHeapSelectFrom_map {α β : Type} (f : β → α) (lt : α → α → Bool)
    (first middle count : Nat) (v : List β) (i : Nat) :
    gnuHeapSelectFrom lt first middle count (v.map f) i =
      (gnuHeapSelectFrom (fun a b => lt (f a) (f b)) first middle count v i).map f := by
  induction count generalizing v i with
  | zero => rfl
  | succ count ih =>
    simp only [gnuHeapSelectFrom, compAt_map, gnuPopHeap_map, ih]
    split <;> rfl

theorem gnuHeapSelect_map {α β : Type} (f : β → α) (lt : α → α → Bool) (v : List β)
    (first middle last : Nat) :
    gnuHeapSelect lt (v.map f) first middle last =
      (gnuHeapSelect (fun a b => lt (f a) (f b)) v first middle last).map f := by
  simp only [gnuHeapSelect, gnuMakeHeap_map, gnuHeapSelectFrom_map]

theorem gnuSortHeap_map {α β : Type} (f : β → α) (lt : α → α → Bool) (first fuel : Nat)
    (v : List β) (last : Nat) :
    gnuSortHeap lt first fuel (v.map f) last =
      (gnuSortHeap (fun a b => lt (f a) (f b)) first fuel v last).map f := by
  induction fuel generalizing v last with
  | zero => rfl
  | succ fuel ih =>
    simp only [gnuSortHeap, gnuPopHeap_map, ih]
    split <;> rfl

theorem gnuHeapSortRange_map {α β : Type} (f : β → α) (lt : α → α → Bool) (v : List β)
    (first middle last : Nat) :
    gnuHeapSortRange lt (v.map f) first middle last =
      (gnuHeapSortRange (fun a b => lt (f a) (f b)) v first middle last).map f := by
  simp only [gnuHeapSortRange, gnuHeapSelect_map, gnuSortHeap_map]

theorem gnuLinearInsertLoop_map {α β : Type} (f : β → α) (lt : α → α → Bool) (val : β)
    (fuel : Nat) (v : List β) (last : Nat) :
    gnuLinearInsertLoop lt (f val) fuel (v.map f) last =
      (gnuLinearInsertLoop (fun a b => lt (f a) (f b)) val fuel v last).map f := by
  induction fuel generalizing v last with
  | zero => simp only [gnuLinearInsertLoop, set_map]
  | succ fuel ih =>
    simp only [gnuLinearInsertLoop, compValAt_map, assignFrom_map, ih, set_map]
    split <;> rfl

theorem gnuUnguardedLinearInsert_map {α β : Type} (f : β → α) (lt : α → α → Bool)
    (v : List β) (last : Nat) :
    gnuUnguardedLinearInsert lt (v.map f) last =
      (gnuUnguardedLinearInsert (fun a b => lt (f a) (f b)) v last).map f := by
  unfold gnuUnguardedLinearInsert
  rw [List.getElem?_map]
  cases v[last]? <;>
    simp only [Option.map_some', Option.map_none', gnuLinearInsertLoop_map, List.length_map]

theorem gnuMoveBackward_map {α β : Type} (f : β → α) (count : Nat) (v : List β) (dst : Nat) :
    gnuMoveBackward count (v.map f) dst = (gnuMoveBackward count v dst).map f := by
  induction count generalizing v dst with
  | zero => rfl
  | succ count ih => simp only [gnuMoveBackward, assignFrom_map, ih]

theorem gnuInsertionSortFrom_map {α β : Type} (f : β → α) (lt : α → α → Bool)
    (first count : Nat) (v : List β) (i : Nat) :
    gnuInsertionSortFrom lt first count (v.map f) i =
      (gnuInsertionSortFrom (fun a b => lt (f a) (f b)) first count v i).map f := by
  induction count generalizing v i with
  | zero => rfl
  | succ count ih =>
    unfold gnuInsertionSortFrom
    rw [compAt_map, List.getElem?_map]
    split
    · cases v[i]? <;>
        simp only [Option.map_some', Option.map_none', gnuMoveBackward_map, set_map, ih]
    · rw [gnuUnguardedLinearInsert_map, ih]

theorem gnuInsertionSort_map {α β : Type} (f : β → α) (lt : α → α → Bool) (v : List β)
    (first last : Nat) :
    gnuInsertionSort lt (v.map f) first last =
      (gnuInsertionSort (fun a b => lt (f a) (f b)) v first last).map f := by
  simp only [gnuInsertionSort, gnuInsertionSortFrom_map]
  split <;> rfl

theorem gnuUnguardedInsertionSort_map {α β : Type} (f : β → α) (lt : α → α → Bool)
    (count : Nat) (v : List β) (i : Nat) :
    gnuUnguardedInsertionSort lt count (v.map f) i =
      (gnuUnguardedInsertionSort (fun a b => lt (f a) (f b)) count v i).map f := by
  induction count generalizing v i with
  | zero => rfl
  | succ count ih => simp only [gnuUnguardedInsertionSort, gnuUnguardedLinearInsert_map, ih]

theorem gnuFinalInsertionSort_map {α β : Type} (f : β → α) (lt : α → α → Bool) (v : List β)
    (first last : Nat) :
    gnuFinalInsertionSort lt (v.map f) first last =
      (gnuFinalInsertionSort (fun a b => lt (f a) (f b)) v first last).map f := by
  simp only [gnuFinalInsertionSort, gnuInsertionSort_map, gnuUnguardedInsertionSort_map]
  split <;> rfl

theorem gnuIntrosortLoop_map {α β : Type} (f : β → α) (lt : α → α → Bool) (depthLimit : Nat)
    (v : List β) (first last : Nat) :
    gnuIntrosortLoop lt depthLimit (v.map f) first last =
      (gnuIntrosortLoop (fun a b => lt (f a) (f b)) depthLimit v first last).map f := by
  induction depthLimit generalizing v first last with
  | zero =>
    simp only [gnuIntrosortLoop, gnuHeapSortRange_map]
    split <;> rfl
  | succ depthLimit ih =>
    simp only [gnuIntrosortLoop, gnuUnguardedPartitionPivot_map, ih]
    split <;> rfl

theorem gnuSort_map {α β : Type} (f : β → α) (lt : α → α → Bool) (v : List β) :
    gnuSort lt (v.map f) = (gnuSort (fun a b => lt (f a) (f b)) v).map f := by
  simp only [gnuSort, List.length_map, gnuIntrosortLoop_map, gnuFinalInsertionSort_map]
  split <;> rfl

theorem map_getElem?_range {α : Type} (l : List α) :
    (List.range l.length).map (fun i => l[i]?) = l.map some := by
  induction l using List.reverseRecOn with
  | nil => rfl
  | append_singleton m a ih =>
    rw [List.length_append, List.length_singleton, List.range_succ, List.map_append,
      List.map_append]
    have hleft : List.map (fun i => (m ++ [a])[i]?) (List.range m.length) =
        List.map (fun i => m[i]?) (List.range m.length) := by
      apply List.map_congr_left
      intro i hi
      exact List.getElem?_append_left (List.mem_range.mp hi)
    rw [hleft, ih]
    simp

theorem gather_gnuSortedPositions {α : Type} (comp : α → α → Prop) [DecidableRel comp]
    (l : List α) :
    gather l (gnuSortedPositions comp l) = gnuSort (fun a b => decide (comp a b)) l := by
  have h1 := gnuSort_map (fun i => l[i]?)
    (fun x y : Option α =>
      match x, y with
      | some a, some b => decide (comp a b)
      | _, _ => false) (List.range l.length)
  have h2 := gnuSort_map (some : α → Option α)
    (fun x y : Option α =>
      match x, y with
      | some a, some b => decide (comp a b)
      | _, _ => false) l
  rw [map_getElem?_range, h2] at h1
  have h3 : gather l (gnuSortedPositions comp l) =
      ((gnuSortedPositions comp l).map (fun i => l[i]?)).filterMap id := by
    unfold gather
    rw [List.filterMap_map]
    rfl
  have h4 : (gnuSortedPositions comp l).map (fun i => l[i]?) =
      (gnuSort (fun a b => decide (comp a b)) l).map some := h1.symm
  rw [h3, h4, List.filterMap_map]
  simp

/-! ## C7: the order of equal scores -/

theorem mem_of_mem_gather {α : Type} (l : List α) (positions : List Nat) (a : α)
    (ha : a ∈ gather l positions) : a ∈ l := by
  unfold gather at ha
  obtain ⟨i, _, hi⟩ := List.mem_filterMap.mp ha
  exact List.getElem?_mem hi

theorem positionLess_eq_false_of_tied (l : List DocumentScore)
    (htied : ∀ r ∈ l, r.score = 0) :
    positionLess (fun a b : DocumentScore => a.score > b.score) l = fun _ _ => false := by
  funext i j
  unfold positionLess
  cases hi : l[i]? with
  | none => rfl
  | some a =>
    cases hj : l[j]? with
    | none => rfl
    | some b =>
      have ha := htied a (List.getElem?_mem hi)
      have hb := htied b (List.getElem?_mem hj)
      simp [ha, hb]

/-- Counterexample to C7 as stated.  All 17 documents of `tieCorpus` score 0
for `tieQuery`, and the corpus iterates them as `d01`, ..., `d17`.  The
`std::sort` of GNU libstdc++ partitions a vector of more than 16 elements
before its insertion sort and leaves the positions in the order
8, 16, 15, ..., 9, 0, 7, ..., 1: the result starts `d09`, `d17`, `d16`, which is
not the corpus order.  Running `gnuSort` on the vector of results itself
gives the same list. -/
theorem scoreDocuments_ties_not_in_corpus_order :
    MapOrdered tieCorpus ∧
    unsortedScores tieCorpus tieQuery =
      tieCorpus.map (fun docPair => (⟨docPair.1, 0⟩ : DocumentScore)) ∧
    gnuSortedPositions (fun a b : DocumentScore => a.score > b.score)
        (unsortedScores tieCorpus tieQuery) =
      [8, 16, 15, 14, 13, 12, 11, 10, 9, 0, 7, 6, 5, 4, 3, 2, 1] ∧
    gnuSort (fun a b : DocumentScore => decide (a.score > b.score))
        (unsortedScores tieCorpus tieQuery) =
      scoreDocuments gnuStdSort tieCorpus tieQuery ∧
    scoreDocuments gnuStdSort tieCorpus tieQuery =
      [⟨"d09".toList, 0⟩, ⟨"d17".toList, 0⟩, ⟨"d16".toList, 0⟩, ⟨"d15".toList, 0⟩,
        ⟨"d14".toList, 0⟩, ⟨"d13".toList, 0⟩, ⟨"d12".toList, 0⟩, ⟨"d11".toList, 0⟩,
        ⟨"d10".toList, 0⟩, ⟨"d01".toList, 0⟩, ⟨"d08".toList, 0⟩, ⟨"d07".toList, 0⟩,
        ⟨"d06".toList, 0⟩, ⟨"d05".toList, 0⟩, ⟨"d04".toList, 0⟩, ⟨"d03".toList, 0⟩,
        ⟨"d02".toList, 0⟩] ∧
    ¬ TiesInCorpusOrder (scoreDocuments gnuStdSort tieCorpus tieQuery) := by
  have htied : ∀ r ∈ tieCorpus.map (fun docPair => (⟨docPair.1, 0⟩ : DocumentScore)),
      r.score = 0 := by
    intro r hr
    obtain ⟨p, _, rfl⟩ := List.mem_map.mp hr
    rfl
  have hpos : gnuSortedPositions (fun a b : DocumentScore => a.score > b.score)
      (tieCorpus.map (fun docPair => (⟨docPair.1, 0⟩ : DocumentScore))) =
      [8, 16, 15, 14, 13, 12, 11, 10, 9, 0, 7, 6, 5, 4, 3, 2, 1] := by
    unfold gnuSortedPositions
    rw [positionLess_eq_false_of_tied _ htied]
    decide
  have hgather : gather (tieCorpus.map (fun docPair => (⟨docPair.1, 0⟩ : DocumentScore)))
      [8, 16, 15, 14, 13, 12, 11, 10, 9, 0, 7, 6, 5, 4, 3, 2, 1] =
      [⟨"d09".toList, 0⟩, ⟨"d17".toList, 0⟩, ⟨"d16".toList, 0⟩, ⟨"d15".toList, 0⟩,
        ⟨"d14".toList, 0⟩, ⟨"d13".toList, 0⟩, ⟨"d12".toList, 0⟩, ⟨"d11".toList, 0⟩,
        ⟨"d10".toList, 0⟩, ⟨"d01".toList, 0⟩, ⟨"d08".toList, 0⟩, ⟨"d07".toList, 0⟩,
        ⟨"d06".toList, 0⟩, ⟨"d05".toList, 0⟩, ⟨"d04".toList, 0⟩, ⟨"d03".toList, 0⟩,
        ⟨"d02".toList, 0⟩] := rfl
  have hres : scoreDocuments gnuStdSort tieCorpus tieQuery =
      [⟨"d09".toList, 0⟩, ⟨"d17".toList, 0⟩, ⟨"d16".toList, 0⟩, ⟨"d15".toList, 0⟩,
        ⟨"d14".toList, 0⟩, ⟨"d13".toList, 0⟩, ⟨"d12".toList, 0⟩, ⟨"d11".toList, 0⟩,
        ⟨"d10".toList, 0⟩, ⟨"d01".toList, 0⟩, ⟨"d08".toList, 0⟩, ⟨"d07".toList, 0⟩,
        ⟨"d06".toList, 0⟩, ⟨"d05".toList, 0⟩, ⟨"d04".toList, 0⟩, ⟨"d03".toList, 0⟩,
        ⟨"d02".toList, 0⟩] := by
    have hne : tieCorpus.isEmpty = false := rfl
    simp only [scoreDocuments, hne, Bool.false_eq_true, if_false, gnuStdSort,
      unsortedScores_tie, hpos]
    rw [if_pos, hgather]
    refine ⟨by decide, List.pairwise_of_forall_mem_list (fun a ha b hb => ?_)⟩
    have ha0 := htied a (mem_of_mem_gather _ _ a ha)
    have hb0 := htied b (mem_of_mem_gather _ _ b hb)
    simp [ha0, hb0]
  refine ⟨by unfold MapOrdered tieCorpus; decide, unsortedScores_tie, ?_, ?_, hres, ?_⟩
  · rw [unsortedScores_tie]
    exact hpos
  · rw [hres, ← gather_gnuSortedPositions, unsortedScores_tie, hpos, hgather]
  · rw [hres]
    unfold TiesInCorpusOrder
    intro hpw
    have h2 := (List.pairwise_cons.mp (List.pairwise_cons.mp hpw).2).1
      ⟨"d16".toList, 0⟩ (by simp) rfl
    exact absurd h2 (by decide)

/-- C7, amended. For every corpus and query the result of `scoreDocuments` is
a permutation of the per-document scores taken in corpus iteration order,
sorted by descending score; when no two documents have the same score it is
exactly the stable sort of those scores.  The order among documents with equal
scores is whatever `std::sort` leaves. -/
theorem scoreDocuments_order (S : StdSort) (documentTexts : CorpusMap) (query : Str) :
    (scoreDocuments S documentTexts query).Perm (unsortedScores documentTexts query) ∧
    (scoreDocuments S documentTexts query).Pairwise (fun a b => a.score ≥ b.score) ∧
    ((unsortedScores documentTexts query).Pairwise (fun a b => a.score ≠ b.score) →
      scoreDocuments S documentTexts query =
        stableSortBy (fun a b : DocumentScore => a.score > b.score)
          (unsortedScores documentTexts query)) :=
  ⟨scoreDocuments_perm_unsorted S documentTexts query,
    scoreDocuments_pairwise S documentTexts query,
    fun hdistinct =>
      (scoreDocuments_unique_of_distinct S stableStdSort documentTexts query hdistinct).trans
        (scoreDocuments_stable_eq documentTexts query)⟩

theorem sample_score_pos : (0 : ℝ) < 100 / Real.sqrt 5 := by positivity

theorem sample_scores_distinct :
    (unsortedScores sampleCorpus sampleQuery).Pairwise (fun a b => a.score ≠ b.score) := by
  rw [unsortedScores_sample]
  simp only [List.pairwise_cons, List.mem_singleton, forall_eq, List.not_mem_nil,
    IsEmpty.forall_iff, implies_true, List.Pairwise.nil, and_true]
  exact ne_of_gt sample_score_pos

/-- Witness of C7, amended: the two scores of the sample corpus differ, and
the `std::sort` of GNU libstdc++ returns the stable sort. -/
theorem scoreDocuments_order_witness :
    (unsortedScores sampleCorpus sampleQuery).Pairwise (fun a b => a.score ≠ b.score) ∧
    scoreDocuments gnuStdSort sampleCorpus sampleQuery =
      stableSortBy (fun a b : DocumentScore => a.score > b.score)
        (unsortedScores sampleCorpus sampleQuery) :=
  ⟨sample_scores_distinct,
    (scoreDocuments_order gnuStdSort sampleCorpus sampleQuery).2.2
      sample_scores_distinct⟩

/-! ## C8: the end-to-end scenario -/

/-- C8. For the corpus `docA ↦ "machine learning social media automation"`,
`docB ↦ "unrelated cooking recipes"` and the query `"social media automation"`,
`scoreDocuments` returns `docA` first with a strictly positive score and
`docB` second with a strictly lower score.  The scores are `100 / √5` and 0. -/
theorem scoreDocuments_end_to_end (S : StdSort) :
    ∃ sA sB : ℝ,
      scoreDocuments S sampleCorpus sampleQuery =
        [⟨"docA".toList, sA⟩, ⟨"docB".toList, sB⟩] ∧
      0 < sA ∧ sB < sA ∧ sA = 100 / Real.sqrt 5 ∧ sB = 0 := by
  refine ⟨100 / Real.sqrt 5, 0, ?_, sample_score_pos, sample_score_pos, rfl, rfl⟩
  rw [scoreDocuments_unique_of_distinct S stableStdSort sampleCorpus sampleQuery
    sample_scores_distinct, scoreDocuments_stable_eq, unsortedScores_sample]
  have hpos := sample_score_pos
  simp only [stableSortBy, List.insertionSort, List.orderedInsert]
  rw [if_pos (by simpa using hpos.le)]

/-! ## C9: one result per document -/

/-- C9. For every corpus and query `scoreDocuments` returns exactly one
`DocumentScore` per document of the corpus: the file paths of the result are a
permutation of the corpus keys, the result is as long as the corpus, and the
result for the empty corpus is the empty sequence. -/
theorem scoreDocuments_one_per_document (S : StdSort) (documentTexts : CorpusMap)
    (query : Str) :
    ((scoreDocuments S documentTexts query).map DocumentScore.filePath).Perm
        (documentTexts.map Prod.fst) ∧
    (scoreDocuments S documentTexts query).length = documentTexts.length ∧
    scoreDocuments S [] query = [] := by
  refine ⟨?_, scoreDocuments_length S documentTexts query, rfl⟩
  have h := (scoreDocuments_perm_unsorted S documentTexts query).map DocumentScore.filePath
  rw [unsortedScores_eq_map, List.map_map] at h
  exact h

/-! ## C10: documents without tokens -/

theorem termRelevance_nil_counts (queryTokens : List Str) (idfScores : StdMap ℝ) :
    termRelevance queryTokens (countTerms []) idfScores = 0 :=
  termRelevance_eq_zero _ _ _ (fun term _ hpos => by
    have h0 : mapAtOr (countTerms []) term 0 = 0 := rfl
    omega)

theorem scoreDocument_of_no_tokens (documentTexts : CorpusMap)
    (hord : MapOrdered documentTexts) (queryTokens : List Str) (idfScores : StdMap ℝ)
    (query : Str) (docPair : Str × Str) (hmem : docPair ∈ documentTexts)
    (htok : tokenizeAndPreprocess docPair.2 = []) :
    (scoreDocument (tokenizeCorpus documentTexts) queryTokens idfScores query docPair).score =
      if 5 < query.length ∧ toLowerRaw query <:+: toLowerRaw docPair.2 then 100 else 0 := by
  rw [scoreDocument_eq, mapAtOr_tokenizeCorpus documentTexts hord docPair hmem, htok,
    termRelevance_nil_counts, addPhraseBonus_eq]
  simp only [docLengthOf, List.length_nil]
  norm_num

/-- C10. For every corpus, every query and every document of the corpus whose
token sequence is empty, the corpus has a result for that document, and its
score is the phrase bonus divided by 1: exactly 100 if the phrase bonus
applies to the document and exactly 0 otherwise. -/
theorem score_of_document_without_tokens (S : StdSort) (documentTexts : CorpusMap)
    (query : Str) (hord : MapOrdered documentTexts) (docPair : Str × Str)
    (hmem : docPair ∈ documentTexts) (htok : tokenizeAndPreprocess docPair.2 = []) :
    (∃ r ∈ scoreDocuments S documentTexts query, r.filePath = docPair.1) ∧
    ∀ r ∈ scoreDocuments S documentTexts query, r.filePath = docPair.1 →
      r.score =
        if 5 < query.length ∧ toLowerRaw query <:+: toLowerRaw docPair.2 then 100 else 0 := by
  have hperm := scoreDocuments_perm_unsorted S documentTexts query
  rw [unsortedScores_eq_map] at hperm
  constructor
  · exact ⟨_, hperm.symm.subset (List.mem_map_of_mem _ hmem), rfl⟩
  · intro r hr hpath
    obtain ⟨p, hp, rfl⟩ := List.mem_map.mp (hperm.subset hr)
    have hkey : p.1 = docPair.1 := hpath
    have h1 := mapFind_of_mem documentTexts hord p hp
    have h2 := mapFind_of_mem documentTexts hord docPair hmem
    rw [hkey, h2] at h1
    have hp2 : p = docPair := Prod.ext hkey (Option.some.inj h1).symm
    subst hp2
    exact scoreDocument_of_no_tokens documentTexts hord _ _ query p hp htok

/-- Witness of C10: the document `e` of `punctCorpus` consists of punctuation
only, so it has no token; the query is its text, six characters long, and the
score of `e` is the phrase bonus. -/
theorem score_of_document_without_tokens_witness :
    MapOrdered punctCorpus ∧
    tokenizeAndPreprocess "!!!!!!".toList = [] ∧
    (∃ r ∈ scoreDocuments stableStdSort punctCorpus punctQuery, r.filePath = "e".toList) ∧
    ∀ r ∈ scoreDocuments stableStdSort punctCorpus punctQuery, r.filePath = "e".toList →
      r.score = 100 := by
  have hord : MapOrdered punctCorpus := by unfold MapOrdered punctCorpus; decide
  have h := score_of_document_without_tokens stableStdSort punctCorpus punctQuery hord
    ("e".toList, "!!!!!!".toList) (by decide) (by decide)
  have hcond : 5 < punctQuery.length ∧
      toLowerRaw punctQuery <:+: toLowerRaw ("e".toList, "!!!!!!".toList).2 := by decide
  rw [if_pos hcond] at h
  exact ⟨hord, by decide, h.1, h.2⟩

/-! ## C11: negative scores -/

theorem mapSet_append_of_lt {β : Type} (k : Str) (v : β) (m : StdMap β)
    (hlt : ∀ e ∈ m, e.1 < k) : mapSet k v m = m ++ [(k, v)] := by
  induction m with
  | nil => rfl
  | cons e m ih =>
    obtain ⟨k0, v0⟩ := e
    have h0 : k0 < k := hlt (k0, v0) (List.mem_cons_self _ _)
    unfold mapSet
    rw [if_neg (fun h : k = k0 => lt_irrefl k0 (h ▸ h0)), if_neg (lt_asymm h0),
      ih (fun e he => hlt e (List.mem_cons_of_mem _ he))]
    rfl

theorem tokenize_foldl_eq_append (documentTexts : CorpusMap) (acc : TokenizedCorpus)
    (hord : (acc.map Prod.fst ++ documentTexts.map Prod.fst).Pairwise (fun a b => a < b)) :
    documentTexts.foldl
        (fun tokenizedDocs pair =>
          mapSet pair.1 (tokenizeAndPreprocess pair.2) tokenizedDocs) acc =
      acc ++ documentTexts.map (fun pair => (pair.1, tokenizeAndPreprocess pair.2)) := by
  induction documentTexts generalizing acc with
  | nil => simp
  | cons e m ih =>
    simp only [List.foldl_cons, List.map_cons]
    have hlt : ∀ x ∈ acc, x.1 < e.1 := by
      intro x hx
      have h := (List.pairwise_append.mp hord).2.2 x.1 (List.mem_map_of_mem Prod.fst hx) e.1
        (by simp)
      exact h
    rw [mapSet_append_of_lt _ _ _ hlt, ih]
    · simp
    · simpa using hord

theorem tokenizeCorpus_eq_map (documentTexts : CorpusMap) (hord : MapOrdered documentTexts) :
    tokenizeCorpus documentTexts =
      documentTexts.map (fun pair => (pair.1, tokenizeAndPreprocess pair.2)) := by
  unfold tokenizeCorpus
  rw [tokenize_foldl_eq_append documentTexts []]
  · rfl
  · simpa [MapOrdered, List.pairwise_map] using hord

theorem termRelevance_foldl_nonneg (queryTokens : List Str) (termFrequency : StdMap Int)
    (idfScores : StdMap ℝ)
    (h : ∀ term ∈ queryTokens, mapAtOr termFrequency term 0 > 0 →
      0 ≤ mapAtOr idfScores term 0.0) (acc : ℝ) (hacc : 0 ≤ acc) :
    0 ≤ queryTokens.foldl
      (fun relevanceSum term =>
        let tfRaw : Int := mapAtOr termFrequency term 0
        if tfRaw > 0 then
          let tfSaturated : ℝ := 1.0 + Real.log (tfRaw : ℝ)
          let idf : ℝ := mapAtOr idfScores term 0.0
          relevanceSum + tfSaturated * idf
        else relevanceSum) acc := by
  induction queryTokens generalizing acc with
  | nil => simpa using hacc
  | cons term queryTokens ih =>
    simp only [List.foldl_cons]
    apply ih (fun t ht => h t (List.mem_cons_of_mem _ ht))
    split
    · rename_i hpos
      have hidf := h term (List.mem_cons_self _ _) hpos
      have hone : (1 : ℝ) ≤ ((mapAtOr termFrequency term 0 : Int) : ℝ) := by
        exact_mod_cast (show (1 : Int) ≤ mapAtOr termFrequency term 0 by omega)
      have hlog := Real.log_nonneg hone
      have hsat : (0 : ℝ) ≤ 1.0 + Real.log ((mapAtOr termFrequency term 0 : Int) : ℝ) := by
        norm_num
        linarith
      have := mul_nonneg hsat hidf
      linarith
    · exact hacc

theorem termRelevance_nonneg (queryTokens : List Str) (termFrequency : StdMap Int)
    (idfScores : StdMap ℝ)
    (h : ∀ term ∈ queryTokens, mapAtOr termFrequency term 0 > 0 →
      0 ≤ mapAtOr idfScores term 0.0) :
    0 ≤ termRelevance queryTokens termFrequency idfScores :=
  termRelevance_foldl_nonneg queryTokens termFrequency idfScores h _ (by norm_num)

theorem docLengthOf_pos (docTokens : List Str) : 0 < docLengthOf docTokens := by
  unfold docLengthOf
  simp only []
  split
  · norm_num
  · rename_i h
    have h1 : (1.0 : ℝ) ≤ (docTokens.length : ℝ) := not_lt.mp h
    have h2 : (0 : ℝ) < 1.0 := by norm_num
    linarith

theorem calculateIdf_neg_imp (term : Str) (tokenizedDocs : TokenizedCorpus)
    (hneg : calculateIdf term tokenizedDocs < 0) :
    tokenizedDocs.length ≤ documentFrequency term tokenizedDocs ∧
      ∀ pair ∈ tokenizedDocs, term ∈ pair.2 := by
  rw [calculateIdf_eq] at hneg
  have hden : (0 : ℝ) < 1 + (documentFrequency term tokenizedDocs : ℝ) := by positivity
  have hN : (0 : ℝ) < (tokenizedDocs.length : ℝ) := by
    rcases Nat.eq_zero_or_pos tokenizedDocs.length with h0 | h0
    · rw [h0] at hneg
      simp at hneg
    · exact_mod_cast h0
  have hlt := (Real.log_neg_iff (div_pos hN hden)).mp hneg
  rw [div_lt_one hden] at hlt
  have hle : tokenizedDocs.length ≤ documentFrequency term tokenizedDocs := by
    have h2 : (tokenizedDocs.length : ℝ) < ((1 + documentFrequency term tokenizedDocs : Nat) : ℝ) := by
      push_cast
      exact hlt
    have h3 := Nat.cast_lt.mp h2
    omega
  refine ⟨hle, ?_⟩
  have hge : documentFrequency term tokenizedDocs ≤ tokenizedDocs.length :=
    List.length_filter_le _ _
  have heq : (tokenizedDocs.filter (fun pair => decide (term ∈ pair.2))).length =
      tokenizedDocs.length := le_antisymm hge hle
  intro pair hp
  simpa using List.filter_length_eq_length.mp heq pair hp

theorem unsortedScores_catOnce :
    unsortedScores catOnce "cat".toList = [⟨"d".toList, Real.log (1 / 2)⟩] := by
  have hmap : ∀ f : Str × Str → DocumentScore, catOnce.map f =
      [f ("d".toList, "cat".toList)] := fun _ => rfl
  rw [unsortedScores_eq_map, hmap]
  simp only [scoreDocument_eq]
  have hq : tokenizeAndPreprocess "cat".toList = ["cat".toList] := by decide
  have hc : tokenizeCorpus catOnce = [("d".toList, ["cat".toList])] := by decide
  have hd : mapAtOr [("d".toList, ["cat".toList])] "d".toList [] = ["cat".toList] := by
    decide
  have ht : countTerms ["cat".toList] = [("cat".toList, 1)] := by decide
  have hidf : buildIdfScores ["cat".toList] [("d".toList, ["cat".toList])] =
      [("cat".toList, Real.log (1 / 2))] := by
    simp only [buildIdfScores, List.foldl_cons, List.foldl_nil, mapFind, Option.isNone_none,
      if_true, mapSet]
    rw [calculateIdf_eq, documentFrequency_of_all _ _ (by decide)]
    norm_num
  have hb : phraseMatches "cat".toList "cat".toList = false := by decide
  rw [hq, hc, hd, ht, hidf]
  simp only [addPhraseBonus, hb, Bool.false_eq_true, if_false, termRelevance, List.foldl_cons,
    List.foldl_nil, mapAtOr, mapFind, if_true, docLengthOf, List.length_cons, List.length_nil]
  norm_num

/-- C11. A document score is negative only in the pathological IDF case: for
every corpus and every query, if `scoreDocuments` gives some document a
strictly negative score, then some query token occurs in every document of the
corpus, so that its document frequency is at least the number `N` of
documents. -/
theorem negative_score_only_if_term_in_every_document (S : StdSort)
    (documentTexts : CorpusMap) (query : Str) (hord : MapOrdered documentTexts)
    (r : DocumentScore) (hr : r ∈ scoreDocuments S documentTexts query)
    (hneg : r.score < 0) :
    ∃ term ∈ tokenizeAndPreprocess query,
      (∀ docPair ∈ documentTexts, term ∈ tokenizeAndPreprocess docPair.2) ∧
      documentTexts.length ≤ documentFrequency term (tokenizeCorpus documentTexts) := by
  have hperm := scoreDocuments_perm_unsorted S documentTexts query
  rw [unsortedScores_eq_map] at hperm
  obtain ⟨p, _, rfl⟩ := List.mem_map.mp (hperm.subset hr)
  rw [scoreDocument_eq] at hneg
  simp only [addPhraseBonus_eq] at hneg
  have hsqrt : 0 < Real.sqrt (docLengthOf (mapAtOr (tokenizeCorpus documentTexts) p.1 [])) :=
    Real.sqrt_pos.mpr (docLengthOf_pos _)
  have hnum := (div_neg_iff.mp hneg).resolve_left (fun h => absurd h.2 (not_lt.mpr hsqrt.le))
  have hbonus : (0 : ℝ) ≤
      (if 5 < query.length ∧ toLowerRaw query <:+: toLowerRaw p.2 then 100 else 0) := by
    split <;> norm_num
  have htr : termRelevance (tokenizeAndPreprocess query)
      (countTerms (mapAtOr (tokenizeCorpus documentTexts) p.1 []))
      (buildIdfScores (tokenizeAndPreprocess query) (tokenizeCorpus documentTexts)) < 0 := by
    linarith [hnum.1]
  have hex : ∃ term ∈ tokenizeAndPreprocess query,
      mapAtOr (buildIdfScores (tokenizeAndPreprocess query) (tokenizeCorpus documentTexts))
        term 0.0 < 0 := by
    by_contra hcon
    push_neg at hcon
    exact absurd htr (not_lt.mpr
      (termRelevance_nonneg _ _ _ (fun term hterm _ => hcon term hterm)))
  obtain ⟨term, hterm, hidf⟩ := hex
  rw [mapAtOr_buildIdfScores _ _ _ hterm] at hidf
  have hall := calculateIdf_neg_imp term (tokenizeCorpus documentTexts) hidf
  refine ⟨term, hterm, ?_, ?_⟩
  · intro docPair hdoc
    have hmem : (docPair.1, tokenizeAndPreprocess docPair.2) ∈ tokenizeCorpus documentTexts := by
      rw [tokenizeCorpus_eq_map documentTexts hord]
      exact List.mem_map_of_mem _ hdoc
    exact hall.2 _ hmem
  · have hlen : (tokenizeCorpus documentTexts).length = documentTexts.length := by
      rw [tokenizeCorpus_eq_map documentTexts hord, List.length_map]
    rw [← hlen]
    exact hall.1

/-- Witness of C11: in the one-document corpus `catOnce` the query `cat` gives
the document the negative score `ln (1/2)`, and `cat` occurs in the document. -/
theorem negative_score_only_if_term_in_every_document_witness :
    MapOrdered catOnce ∧
    (⟨"d".toList, Real.log (1 / 2)⟩ : DocumentScore) ∈
      scoreDocuments stableStdSort catOnce "cat".toList ∧
    Real.log (1 / 2) < 0 ∧
    ∃ term ∈ tokenizeAndPreprocess "cat".toList,
      (∀ docPair ∈ catOnce, term ∈ tokenizeAndPreprocess docPair.2) ∧
      catOnce.length ≤ documentFrequency term (tokenizeCorpus catOnce) :=
  have hord : MapOrdered catOnce := by unfold MapOrdered catOnce; decide
  have hmem : (⟨"d".toList, Real.log (1 / 2)⟩ : DocumentScore) ∈
      scoreDocuments stableStdSort catOnce "cat".toList :=
    (scoreDocuments_perm_unsorted stableStdSort catOnce "cat".toList).symm.subset
      (by rw [unsortedScores_catOnce]; exact List.mem_singleton.mpr rfl)
  have hneg : Real.log (1 / 2) < 0 := Real.log_neg (by norm_num) (by norm_num)
  ⟨hord, hmem, hneg,
    negative_score_only_if_term_in_every_document stableStdSort catOnce "cat".toList hord
      ⟨"d".toList, Real.log (1 / 2)⟩ hmem hneg⟩

/-! ## C12: the maximum score in the local-results branch -/

theorem scoreDocuments_nil (S : StdSort) (query : Str) : scoreDocuments S [] query = [] := rfl

theorem mainScoring_eq (S : StdSort) (extracted : List (Str × Str)) :
    mainScoring S extracted =
      { localResults := scoreDocuments S (buildCorpus extracted) searchTopic,
        maxScore :=
          match scoreDocuments S (buildCorpus extracted) searchTopic with
          | [] => 0.0
          | top :: _ => if top.score > 0.0 then top.score else 0.0 } := by
  unfold mainScoring
  cases extracted with
  | nil => simp [buildCorpus, scoreDocuments_nil]
  | cons e rest =>
    simp only [List.isEmpty_cons, Bool.not_false, if_true]
    cases hc : buildCorpus (e :: rest) with
    | nil => simp [scoreDocuments_nil]
    | cons c corpus =>
      simp only [List.isEmpty_cons, Bool.not_false, if_true]
      cases hres : scoreDocuments S (c :: corpus) searchTopic with
      | nil => rfl
      | cons top others =>
        simp only []
        split <;> rfl

theorem displayLoop_isSome (maxScore : ℝ) (hmax : maxScore ≠ 0)
    (localResults : List DocumentScore) (rank : Int) :
    (displayLoop maxScore localResults rank).isSome = true := by
  induction localResults generalizing rank with
  | nil => rfl
  | cons res rest ih =>
    unfold displayLoop
    split
    · rfl
    · have h := ih (rank + 1)
      cases hd : displayLoop maxScore rest (rank + 1) with
      | none => rw [hd] at h; simp at h
      | some shown => rfl

theorem topScoreRaw_ge_of_mem (S : StdSort) (documentTexts : CorpusMap) (query : Str)
    (r : DocumentScore) (hr : r ∈ scoreDocuments S documentTexts query) :
    r.score ≤ topScoreRaw (scoreDocuments S documentTexts query) := by
  have hpw := scoreDocuments_pairwise S documentTexts query
  cases hres : scoreDocuments S documentTexts query with
  | nil => rw [hres] at hr; simp at hr
  | cons top others =>
    rw [hres] at hr hpw
    simp only [topScoreRaw]
    rcases List.mem_cons.mp hr with h | h
    · rw [h]
    · exact (List.pairwise_cons.mp hpw).1 r h

theorem calculateIdf_nonneg (term : Str) (tokenizedDocs : TokenizedCorpus)
    (hdf : documentFrequency term tokenizedDocs + 1 ≤ tokenizedDocs.length) :
    0 ≤ calculateIdf term tokenizedDocs := by
  rw [calculateIdf_eq]
  apply Real.log_nonneg
  have hden : (0 : ℝ) < 1 + (documentFrequency term tokenizedDocs : ℝ) := by positivity
  rw [one_le_div hden]
  have h : ((documentFrequency term tokenizedDocs + 1 : Nat) : ℝ) ≤
      (tokenizedDocs.length : ℝ) := by exact_mod_cast hdf
  push_cast at h
  linarith

theorem buildCorpus_localExtracted : buildCorpus localExtracted = localExtracted := by
  decide

theorem localExtracted_ordered : MapOrdered localExtracted := by
  unfold MapOrdered localExtracted
  decide

theorem localExtracted_first_score :
    (1 / 2 : ℝ) ≤
      (scoreDocument (tokenizeCorpus localExtracted) (tokenizeAndPreprocess searchTopic)
        (buildIdfScores (tokenizeAndPreprocess searchTopic) (tokenizeCorpus localExtracted))
        searchTopic ("1.pdf".toList, searchTopic)).score := by
  have hmem : ("1.pdf".toList, searchTopic) ∈ localExtracted := by decide
  have htok : tokenizeAndPreprocess searchTopic =
      ["title".toList, "aipowered".toList, "social".toList, "media".toList,
        "automation".toList, "app".toList] := by decide
  have hdf : ∀ term ∈ tokenizeAndPreprocess searchTopic,
      documentFrequency term (tokenizeCorpus localExtracted) + 1 ≤
        (tokenizeCorpus localExtracted).length := by decide
  have hrel := termRelevance_nonneg (tokenizeAndPreprocess searchTopic)
    (countTerms (tokenizeAndPreprocess searchTopic))
    (buildIdfScores (tokenizeAndPreprocess searchTopic) (tokenizeCorpus localExtracted))
    (fun term hterm _ => by
      rw [mapAtOr_buildIdfScores _ _ _ hterm]
      exact calculateIdf_nonneg term _ (hdf term hterm))
  have hphrase : phraseMatches searchTopic searchTopic = true := by decide
  have hlen : docLengthOf (tokenizeAndPreprocess searchTopic) = 6 := by
    rw [htok]
    simp only [docLengthOf, List.length_cons, List.length_nil]
    norm_num
  rw [scoreDocument_eq, mapAtOr_tokenizeCorpus localExtracted localExtracted_ordered _ hmem]
  simp only [addPhraseBonus, hphrase, if_true, hlen]
  have hsqrt_pos : (0 : ℝ) < Real.sqrt 6 := Real.sqrt_pos.mpr (by norm_num)
  have hsqrt_le : Real.sqrt 6 ≤ 6 := by
    rw [Real.sqrt_le_iff]
    constructor <;> norm_num
  rw [le_div_iff₀ hsqrt_pos]
  norm_num
  linarith

theorem localExtracted_no_fallback (S : StdSort) :
    fallbackNeeded (mainScoring S localExtracted).localResults = false := by
  rw [mainScoring_eq, buildCorpus_localExtracted]
  simp only [fallbackNeeded, Bool.or_eq_false_iff, decide_eq_false_iff_not, not_lt,
    scoreDocuments_length, MIN_ABSOLUTE_SCORE_THRESHOLD]
  refine ⟨by decide, ?_⟩
  have hmem : scoreDocument (tokenizeCorpus localExtracted) (tokenizeAndPreprocess searchTopic)
      (buildIdfScores (tokenizeAndPreprocess searchTopic) (tokenizeCorpus localExtracted))
      searchTopic ("1.pdf".toList, searchTopic) ∈
        scoreDocuments S localExtracted searchTopic := by
    apply (scoreDocuments_perm_unsorted S localExtracted searchTopic).symm.subset
    rw [unsortedScores_eq_map]
    exact List.mem_map_of_mem _ (by decide)
  have htop := topScoreRaw_ge_of_mem S localExtracted searchTopic _ hmem
  have hfirst := localExtracted_first_score
  norm_num
  linarith

/-- C12. Whenever the fallback decision of `main` is false, the result list is
not empty, `maxScore` equals the score of its first result, and that score is
at least the threshold 0.5, hence positive: `maxScore` is not zero and the
display loop of the local-results branch never divides by zero. -/
theorem maxScore_positive_of_no_fallback (S : StdSort) (extracted : List (Str × Str))
    (hno : fallbackNeeded (mainScoring S extracted).localResults = false) :
    (∃ top rest, (mainScoring S extracted).localResults = top :: rest ∧
      (mainScoring S extracted).maxScore = top.score) ∧
    (mainScoring S extracted).maxScore = topScoreRaw (mainScoring S extracted).localResults ∧
    (1 / 2 : ℝ) ≤ (mainScoring S extracted).maxScore ∧
    0 < (mainScoring S extracted).maxScore ∧
    (mainScoring S extracted).maxScore ≠ 0 ∧
    (displayLoop (mainScoring S extracted).maxScore
      (mainScoring S extracted).localResults 1).isSome = true := by
  rw [mainScoring_eq] at hno ⊢
  simp only [] at hno ⊢
  cases hres : scoreDocuments S (buildCorpus extracted) searchTopic with
  | nil =>
    rw [hres] at hno
    simp [fallbackNeeded] at hno
  | cons top rest =>
    rw [hres] at hno
    simp only [fallbackNeeded, topScoreRaw, MIN_ABSOLUTE_SCORE_THRESHOLD, Bool.or_eq_false_iff,
      decide_eq_false_iff_not, not_lt] at hno
    have hhalf : (1 / 2 : ℝ) ≤ top.score := by
      have h := hno.2
      norm_num at h
      linarith
    have hpos : top.score > 0.0 := by
      norm_num
      linarith
    simp only [if_pos hpos, topScoreRaw]
    have hne : top.score ≠ 0 := by
      intro h0
      rw [h0] at hhalf
      norm_num at hhalf
    refine ⟨⟨top, rest, ?_, ?_⟩, ?_, hhalf, by linarith, hne,
      displayLoop_isSome top.score hne (top :: rest) 1⟩ <;> first | rfl | trivial

/-- Witness of C12: with the five documents of `localExtracted` the fallback
decision is false, and `maxScore` is not zero. -/
theorem maxScore_positive_of_no_fallback_witness :
    fallbackNeeded (mainScoring stableStdSort localExtracted).localResults = false ∧
    (mainScoring stableStdSort localExtracted).maxScore =
      topScoreRaw (mainScoring stableStdSort localExtracted).localResults ∧
    (mainScoring stableStdSort localExtracted).maxScore ≠ 0 :=
  ⟨localExtracted_no_fallback stableStdSort,
    (maxScore_positive_of_no_fallback stableStdSort localExtracted
      (localExtracted_no_fallback stableStdSort)).2.1,
    (maxScore_positive_of_no_fallback stableStdSort localExtracted
      (localExtracted_no_fallback stableStdSort)).2.2.2.2.1⟩

end RelevanceScorer
